import Mathlib

/-!
Verification of the MLGit dependency-aware scheduler and content-addressable
store (`mlgit.core.graph`, `mlgit.core.scheduler`, `mlgit.core.ast_indexer`,
`mlgit.core.storage`, `mlgit.core.retriever`).

The Python source is shallowly embedded: dictionaries become association
lists or functions, Python `set`/`frozenset` become `Finset`, float weights
become integers (`ℤ`; all arithmetic the program performs on byte counts is
exact, so the float embedding loses nothing), and code that
can raise becomes `Except`.  External collaborators (the `ast` parser, the
file system, `gzip`, `sha256`) are parameters of the embedded functions.
-/

namespace MLGit

/-! ## `mlgit.core.ast_indexer`

`index_file` reads and parses a file and produces a metadata dictionary whose
`module` field is `str(file_path)`; everything that can raise (file I/O, the
`ast` parser, the extraction walk) is abstracted into the environment
parameter `env`, which returns either the extracted payload or the message of
the raised exception.  `ast_index_modules` loops over the paths, appending the
`index_file` result, and converts an exception into an error dictionary
`\x7b'module': str(fp), 'error': str(e)\x7d`. -/

/-- A result entry of `ast_index_modules`: either the metadata dictionary
(whose `module` field is the file path) or the error dictionary. -/
inductive AstResult (μ : Type) where
  | ok (module : String) (meta : μ)
  | err (module : String) (error : String)
  deriving DecidableEq

/-- The `module` field present in both shapes of result dictionary. -/
def AstResult.moduleField {μ : Type} : AstResult μ → String
  | .ok m _ => m
  | .err m _ => m

/-- `index_file(file_path)`: on success the returned dictionary carries
`'module': str(file_path)` together with the extracted payload. -/
def index_file {μ : Type} (env : String → Except String μ) (fp : String) :
    Except String (String × μ) :=
  match env fp with
  | .ok m => .ok (fp, m)
  | .error e => .error e

/-- `ast_index_modules(file_paths)`: the loop with `try/except` around each
`index_file` call. -/
def ast_index_modules {μ : Type} (env : String → Except String μ)
    (file_paths : List String) : List (AstResult μ) :=
  file_paths.foldl
    (fun results fp =>
      results ++ [match index_file env fp with
        | .ok (m, meta) => AstResult.ok m meta
        | .error e => AstResult.err fp e])
    []

theorem ast_index_modules_append {μ : Type} (env : String → Except String μ)
    (acc : List (AstResult μ)) (fps : List String) :
    fps.foldl
      (fun results fp =>
        results ++ [match index_file env fp with
          | .ok (m, meta) => AstResult.ok m meta
          | .error e => AstResult.err fp e])
      acc
    = acc ++ ast_index_modules env fps := by
  induction fps generalizing acc with
  | nil => simp [ast_index_modules]
  | cons fp rest ih =>
    rw [ast_index_modules, List.foldl_cons, List.foldl_cons, ih, ih]
    simp

theorem ast_index_modules_cons {μ : Type} (env : String → Except String μ)
    (fp : String) (rest : List String) :
    ast_index_modules env (fp :: rest)
    = (match index_file env fp with
        | .ok (m, meta) => AstResult.ok m meta
        | .error e => AstResult.err fp e) :: ast_index_modules env rest := by
  rw [ast_index_modules, List.foldl_cons, ast_index_modules_append]
  simp

theorem ast_index_modules_eq_map {μ : Type} (env : String → Except String μ)
    (fps : List String) :
    ast_index_modules env fps
    = fps.map (fun fp => match env fp with
        | .ok m => AstResult.ok fp m
        | .error e => AstResult.err fp e) := by
  induction fps with
  | nil => rfl
  | cons fp rest ih =>
    rw [ast_index_modules_cons, ih, List.map_cons]
    cases h : env fp <;> simp [index_file, h]

/-- C10: `ast_index_modules` never raises — in the embedding it is a total
function returning a plain list.  It returns exactly one dictionary per input
path, in input order; each entry's `module` field equals the corresponding
path; and when indexing a path raises, its entry is the error dictionary
holding that path and the exception message. -/
theorem claim_C10_ast_index_modules_total {μ : Type} (env : String → Except String μ)
    (fps : List String) :
    (ast_index_modules env fps).length = fps.length ∧
    ∀ (i : Nat) (fp : String), fps[i]? = some fp →
      ((ast_index_modules env fps)[i]?.map AstResult.moduleField = some fp ∧
       ∀ e, env fp = .error e →
         (ast_index_modules env fps)[i]? = some (AstResult.err fp e)) := by
  constructor
  · rw [ast_index_modules_eq_map]
    exact List.length_map _ _
  · intro i fp hfp
    constructor
    · rw [ast_index_modules_eq_map]
      rw [List.getElem?_map, hfp]
      cases h : env fp <;> simp [h, AstResult.moduleField]
    · intro e he
      rw [ast_index_modules_eq_map, List.getElem?_map, hfp]
      simp [he]

/-- Witness for C10 at a concrete environment and path list. -/
theorem claim_C10_witness :
    (ast_index_modules
      (fun fp => if fp = "b" then Except.error "boom" else Except.ok (0 : Nat))
      ["a", "b"]).length = 2 ∧
    (ast_index_modules
      (fun fp => if fp = "b" then Except.error "boom" else Except.ok (0 : Nat))
      ["a", "b"])[1]? = some (AstResult.err "b" "boom") := by
  have h := claim_C10_ast_index_modules_total
    (fun fp => if fp = "b" then Except.error "boom" else Except.ok (0 : Nat))
    ["a", "b"]
  exact ⟨h.1, (h.2 1 "b" rfl).2 "boom" rfl⟩

/-! ## `mlgit.core.graph`: `build_import_graph`

A tracked file is identified by its repo-relative path split on the path
separator (one entry of the `git ls-tree -r --name-only HEAD` output); the
last component still carries its `.py` suffix.  Reading and `ast`-parsing a
file is abstracted into the `parse` environment parameter, which returns
the import references collected by the `ast.walk` loop (one `ImpRef.imp` per
`ast.Import` alias, one `ImpRef.impFrom` per `ast.ImportFrom` alias,
including its `level`), or the message of the raised exception. -/

/-- Repo-relative path components of a tracked file. -/
abbrev PathF := List String

/-- `str.endswith(".py")` on a path (equivalently, on its last component). -/
def endsWithPy (f : PathF) : Bool :=
  match f.getLast? with
  | some s =>
    match s.toList.reverse with
    | 'y' :: 'p' :: '.' :: _ => true
    | _ => false
  | none => false

/-- `PurePath.with_suffix("")` applied to a file name: drop the trailing
dotted suffix (nothing is dropped when the name has no suffix). -/
def stripSuffixStr (s : String) : String :=
  match s.toList.reverse.dropWhile (fun c => decide (c ≠ '.')) with
  | '.' :: rest => if rest.isEmpty then s else String.mk rest.reverse
  | _ => s

/-- `rel.with_suffix("").parts`: only the last component loses its suffix. -/
def withSuffixStripped : PathF → PathF
  | [] => []
  | [last] => [stripSuffixStr last]
  | p :: rest => p :: withSuffixStripped rest

/-- `".".join(rel.with_suffix("").parts)` — the module name of a file. -/
def moduleName (f : PathF) : String :=
  String.intercalate "." (withSuffixStripped f)

/-- The `module_map` dictionary: module name → file path.  Insertion order is
the file order; on duplicate module names the later insertion wins. -/
def module_map (py_files : List PathF) : List (String × PathF) :=
  py_files.map (fun f => (moduleName f, f))

/-- Dictionary lookup (last insertion wins, as in a Python `dict`). -/
def dictLookup (m : List (String × PathF)) (k : String) : Option PathF :=
  (m.reverse.find? (fun e => e.1 == k)).map Prod.snd

/-- `candidate.split(".")`. -/
def splitDotsAux : List Char → List Char → List String
  | [], acc => [String.mk acc.reverse]
  | c :: rest, acc =>
    if c = '.' then String.mk acc.reverse :: splitDotsAux rest []
    else splitDotsAux rest (c :: acc)

/-- `full.split(".")`, the dotted segments of a candidate name. -/
def splitDots (s : String) : List String := splitDotsAux s.toList []

/-- `for i in range(len(parts), 0, -1): candidate = ".".join(parts[:i])` —
try prefixes of the dotted name, longest first, against `module_map`. -/
def tryPrefixesAux (mm : List (String × PathF)) (parts : List String) :
    Nat → Option PathF
  | 0 => none
  | i + 1 =>
    match dictLookup mm (String.intercalate "." (parts.take (i + 1))) with
    | some f => some f
    | none => tryPrefixesAux mm parts i

/-- Longest-prefix resolution of a candidate dotted name. -/
def resolveLongest (mm : List (String × PathF)) (full : String) : Option PathF :=
  tryPrefixesAux mm (splitDots full) (splitDots full).length

/-- One import reference, as collected from `ast.Import` (`imp`) or
`ast.ImportFrom` (`impFrom`, with `base = node.module` — `none` when the
node has no module, as in `from . import x` — and the per-alias `name` and
the number `level` of leading dots). -/
inductive ImpRef where
  | imp (name : String)
  | impFrom (base : Option String) (name : String) (level : Nat)
  deriving DecidableEq

/-- The candidate name the source builds for an `ast.ImportFrom` alias:
`f"{node.module}.{alias.name}"` when `node.module` is truthy, else
`alias.name`.  (The source never reads `node.level`.) -/
def importFromFull (base : Option String) (name : String) : String :=
  match base with
  | some b => b ++ "." ++ name
  | none => name

/-- The file a reference resolves to (`none` when external or a
star import). -/
def refTarget (mm : List (String × PathF)) : ImpRef → Option PathF
  | .imp name => resolveLongest mm name
  | .impFrom base name _ =>
    if name = "*" then none
    else resolveLongest mm (importFromFull base name)

/-- The adjacency set accumulated for one file from its references. -/
def fileEdges (mm : List (String × PathF)) (refs : List ImpRef) : Finset PathF :=
  refs.foldl
    (fun s r =>
      match refTarget mm r with
      | some tgt => insert tgt s
      | none => s) ∅

/-- The per-file loop of `build_import_graph`: parse each file (an exception
propagates) and append its adjacency entry. -/
def buildGraphAux (mm : List (String × PathF))
    (parse : PathF → Except String (List ImpRef)) :
    List PathF → List (PathF × Finset PathF) →
    Except String (List (PathF × Finset PathF))
  | [], acc => .ok acc
  | f :: rest, acc =>
    match parse f with
    | .error e => .error e
    | .ok refs => buildGraphAux mm parse rest (acc ++ [(f, fileEdges mm refs)])

/-- `build_import_graph`: filter the committed files to `.py`, build the
module-name map, then parse each file and resolve its imports by
longest-prefix match. -/
def build_import_graph (raw : List PathF)
    (parse : PathF → Except String (List ImpRef)) :
    Except String (List (PathF × Finset PathF)) :=
  let py_files := raw.filter endsWithPy
  buildGraphAux (module_map py_files) parse py_files []

/-- Modelled from the spec (§4.2 step 3, relative case) — this construction
is absent from the source: "start from the importing file's containing
package, ascend `level` packages, then append `base` (if any) and then
`identifier` (if any), joined by dots". -/
def specRelCandidate (importer : PathF) (base : Option String)
    (ident : Option String) (level : Nat) : String :=
  let pkg := importer.dropLast
  let anc := pkg.take (pkg.length - level)
  String.intercalate "."
    (anc ++ (match base with | some b => [b] | none => [])
         ++ (match ident with | some i => [i] | none => []))

theorem buildGraphAux_error (mm : List (String × PathF))
    (parse : PathF → Except String (List ImpRef)) (files : List PathF)
    (acc : List (PathF × Finset PathF)) (f : PathF) (e : String)
    (hf : f ∈ files) (he : parse f = .error e) :
    ∃ e', buildGraphAux mm parse files acc = .error e' := by
  induction files generalizing acc with
  | nil => cases hf
  | cons g rest ih =>
    rw [buildGraphAux]
    cases hpg : parse g with
    | error e0 => exact ⟨e0, rfl⟩
    | ok refs =>
      rcases List.mem_cons.mp hf with rfl | hf'
      · rw [he] at hpg
        cases hpg
      · exact ih _ hf'

/-- C3 counterexample: with two committed files where the first fails to
parse, `build_import_graph` does not return a graph at all — the claim that
a parse failure is not fatal and the file appears with an empty adjacency
set is false on this input. -/
theorem claim_C3_counterexample :
    (build_import_graph [["a.py"], ["b.py"]]
      (fun f => if f = ["a.py"] then Except.error "syntax" else Except.ok [])).isOk
    = false := by decide

/-- C3 (amended): a parse failure is fatal: if any committed `.py` file
fails to parse, `build_import_graph` propagates the exception and returns no
graph (so the unparseable file appears in no returned mapping). -/
theorem claim_C3_parse_error_fatal (raw : List PathF)
    (parse : PathF → Except String (List ImpRef)) (f : PathF) (e : String)
    (hf : f ∈ raw.filter endsWithPy) (he : parse f = .error e) :
    ∃ e', build_import_graph raw parse = .error e' :=
  buildGraphAux_error _ parse _ [] f e hf he

/-- Witness for the amended C3 at a concrete repository. -/
theorem claim_C3_witness :
    (["a.py"] ∈ ([["a.py"], ["b.py"]] : List PathF).filter endsWithPy) ∧
    ∃ e', build_import_graph [["a.py"], ["b.py"]]
      (fun f => if f = ["a.py"] then Except.error "syntax" else Except.ok [])
      = .error e' :=
  ⟨by decide,
   claim_C3_parse_error_fatal [["a.py"], ["b.py"]]
     (fun f => if f = ["a.py"] then Except.error "syntax" else Except.ok [])
     ["a.py"] "syntax" (by decide) rfl⟩

/-- C4 counterexample: for the relative reference `from . import x` (level 1)
in `pkg/sub/a.py`, the builder's candidate ignores the importing package and
the level: the reference is discarded as external, while the spec's
construction produces a candidate that longest-prefix-resolves to a tracked
file.  The builder therefore does not construct the candidate the claim
describes. -/
theorem claim_C4_counterexample :
    refTarget
        (module_map [["pkg", "x.py"], ["pkg", "sub", "x.py"], ["pkg", "sub", "a.py"]])
        (ImpRef.impFrom none "x" 1) = none
    ∧ resolveLongest
        (module_map [["pkg", "x.py"], ["pkg", "sub", "x.py"], ["pkg", "sub", "a.py"]])
        (specRelCandidate ["pkg", "sub", "a.py"] none (some "x") 1)
      = some ["pkg", "x.py"] := by decide

/-- Replace the `level` of a reference by `0`. -/
def zeroLevel : ImpRef → ImpRef
  | .imp n => .imp n
  | .impFrom b n _ => .impFrom b n 0

theorem refTarget_zeroLevel (mm : List (String × PathF)) (r : ImpRef) :
    refTarget mm (zeroLevel r) = refTarget mm r := by
  cases r <;> rfl

theorem fileEdges_zeroLevel (mm : List (String × PathF)) (refs : List ImpRef) :
    fileEdges mm (refs.map zeroLevel) = fileEdges mm refs := by
  rw [fileEdges, fileEdges]
  generalize (∅ : Finset PathF) = s
  induction refs generalizing s with
  | nil => rfl
  | cons r rest ih =>
    rw [List.map_cons, List.foldl_cons, List.foldl_cons, refTarget_zeroLevel]
    exact ih _

/-- C4 (amended): the builder ignores `level` entirely: every
relative import reference is resolved exactly as the absolute reference with the same
`base` and identifier, with no reference to the importing file's package.
Zeroing every reference's level leaves the returned graph unchanged. -/
theorem claim_C4_level_ignored (raw : List PathF)
    (parse : PathF → Except String (List ImpRef)) :
    build_import_graph raw (fun f => (parse f).map (List.map zeroLevel))
    = build_import_graph raw parse := by
  rw [build_import_graph, build_import_graph]
  generalize ([] : List (PathF × Finset PathF)) = acc
  generalize (module_map (raw.filter endsWithPy)) = mm
  generalize (raw.filter endsWithPy) = files
  induction files generalizing acc with
  | nil => rfl
  | cons f rest ih =>
    rw [buildGraphAux, buildGraphAux]
    cases hpf : parse f with
    | error e => rfl
    | ok refs =>
      simp only [Except.map, fileEdges_zeroLevel]
      exact ih _

theorem fileEdges_foldl_mono (mm : List (String × PathF)) (refs : List ImpRef)
    (s : Finset PathF) (x : PathF) (hx : x ∈ s) :
    x ∈ refs.foldl
      (fun s r =>
        match refTarget mm r with
        | some tgt => insert tgt s
        | none => s) s := by
  induction refs generalizing s with
  | nil => exact hx
  | cons r rest ih =>
    rw [List.foldl_cons]
    refine ih _ ?_
    cases refTarget mm r with
    | some tgt => exact Finset.mem_insert_of_mem hx
    | none => exact hx

theorem fileEdges_foldl_mem (mm : List (String × PathF)) (refs : List ImpRef)
    (r : ImpRef) (t : PathF) (hr : r ∈ refs) (ht : refTarget mm r = some t) :
    ∀ s : Finset PathF,
      t ∈ refs.foldl
        (fun s r =>
          match refTarget mm r with
          | some tgt => insert tgt s
          | none => s) s := by
  induction refs with
  | nil => cases hr
  | cons r0 rest ih =>
    intro s
    rw [List.foldl_cons]
    rcases List.mem_cons.mp hr with rfl | hr'
    · rw [ht]
      exact fileEdges_foldl_mono mm rest _ t (Finset.mem_insert_self t s)
    · exact ih hr' _

theorem fileEdges_mem (mm : List (String × PathF)) (refs : List ImpRef)
    (r : ImpRef) (t : PathF) (hr : r ∈ refs) (ht : refTarget mm r = some t) :
    t ∈ fileEdges mm refs := by
  rw [fileEdges]
  exact fileEdges_foldl_mem mm refs r t hr ht ∅

theorem buildGraphAux_acc_mem (mm : List (String × PathF))
    (parse : PathF → Except String (List ImpRef)) (files : List PathF)
    (acc g : List (PathF × Finset PathF))
    (h : buildGraphAux mm parse files acc = .ok g)
    (x : PathF × Finset PathF) (hx : x ∈ acc) : x ∈ g := by
  induction files generalizing acc with
  | nil =>
    rw [buildGraphAux] at h
    cases h
    exact hx
  | cons f rest ih =>
    rw [buildGraphAux] at h
    cases hpf : parse f with
    | error e =>
      rw [hpf] at h
      cases h
    | ok refs =>
      rw [hpf] at h
      exact ih _ h (List.mem_append_left _ hx)

theorem buildGraphAux_mem (mm : List (String × PathF))
    (parse : PathF → Except String (List ImpRef)) (files : List PathF)
    (acc g : List (PathF × Finset PathF))
    (h : buildGraphAux mm parse files acc = .ok g)
    (f : PathF) (refs : List ImpRef) (hf : f ∈ files)
    (hrefs : parse f = .ok refs) :
    (f, fileEdges mm refs) ∈ g := by
  induction files generalizing acc with
  | nil => cases hf
  | cons f0 rest ih =>
    rw [buildGraphAux] at h
    cases hpf : parse f0 with
    | error e =>
      rw [hpf] at h
      cases h
    | ok refs0 =>
      rw [hpf] at h
      rcases List.mem_cons.mp hf with rfl | hf'
      · rw [hrefs] at hpf
        cases hpf
        refine buildGraphAux_acc_mem mm parse rest _ g h _ ?_
        exact List.mem_append_right _ (List.mem_singleton.mpr rfl)
      · exact ih _ h hf'

/-- C5 counterexample: the single file `a.py` containing `import a` resolves
to itself and the self-edge is present in the returned graph — the claim
that the returned graph contains no self-edges is false on this input. -/
theorem claim_C5_counterexample :
    ∃ g, build_import_graph [["a.py"]] (fun _ => Except.ok [ImpRef.imp "a"])
        = Except.ok g
      ∧ ∃ p es, (p, es) ∈ g ∧ p ∈ es := by
  exact ⟨[(["a.py"], {["a.py"]})], rfl,
    ["a.py"], {["a.py"]}, by decide, by decide⟩

/-- C5 (amended): self-edges are not omitted: whenever some reference of a
tracked file `f` longest-prefix-resolves to `f` itself, the returned graph
contains the edge `f → f`. -/
theorem claim_C5_self_edge_added (raw : List PathF)
    (parse : PathF → Except String (List ImpRef))
    (g : List (PathF × Finset PathF)) (f : PathF) (refs : List ImpRef)
    (r : ImpRef) (hok : build_import_graph raw parse = .ok g)
    (hf : f ∈ raw.filter endsWithPy) (hrefs : parse f = .ok refs)
    (hr : r ∈ refs)
    (ht : refTarget (module_map (raw.filter endsWithPy)) r = some f) :
    ∃ es, (f, es) ∈ g ∧ f ∈ es :=
  ⟨fileEdges (module_map (raw.filter endsWithPy)) refs,
   buildGraphAux_mem _ parse _ [] g hok f refs hf hrefs,
   fileEdges_mem _ refs r f hr ht⟩

/-- Witness for the amended C5 at a concrete repository. -/
theorem claim_C5_witness :
    (["a.py"] ∈ ([["a.py"]] : List PathF).filter endsWithPy) ∧
    ∃ es, (["a.py"], es)
        ∈ [((["a.py"] : PathF), ({["a.py"]} : Finset PathF))] ∧ ["a.py"] ∈ es :=
  ⟨by decide,
   claim_C5_self_edge_added [["a.py"]] (fun _ => Except.ok [ImpRef.imp "a"])
     [(["a.py"], {["a.py"]})] ["a.py"] [ImpRef.imp "a"] (ImpRef.imp "a")
     rfl (by decide) rfl (by decide) (by decide)⟩

/-! ## `mlgit.core.graph`: SCCs, weights, critical path, scheduling order

An import graph (a Python `Dict[Path, Set[Path]]`) is embedded as its key
list (in dictionary insertion order) together with a successor function; a
component (`frozenset`) is a `Finset`.  Byte sizes (floats on integral
values, with exact arithmetic) are embedded as integers. -/

/-- A dictionary-of-sets graph: keys in insertion order plus adjacency. -/
structure Graph (ν : Type) where
  keys : List ν
  succ : ν → List ν

section Tarjan

variable {ν : Type} [DecidableEq ν]

/-- State of Tarjan's algorithm.  `on_stack` in the source always mirrors
membership of `stack` (elements are added and removed in lockstep), so it is
represented by `· ∈ stack`. -/
structure Tj (ν : Type) where
  idx : Nat
  indices : ν → Option Nat
  lowlink : ν → Nat
  stack : List ν
  sccs : List (List ν)

/-- The pop loop of `strongconnect`'s root phase: pop until `v` is found,
collecting the popped component. -/
def popUntil (v : ν) : List ν → List ν × List ν
  | [] => ([], [])
  | w :: rest =>
    if w = v then ([w], rest)
    else
      let p := popUntil v rest
      (w :: p.1, p.2)

/-- The entry of `strongconnect(v)`: assign index and lowlink, push `v`. -/
def tjPush (v : ν) (st : Tj ν) : Tj ν :=
  { idx := st.idx + 1,
    indices := fun x => if x = v then some st.idx else st.indices x,
    lowlink := fun x => if x = v then st.idx else st.lowlink x,
    stack := v :: st.stack,
    sccs := st.sccs }

/-- The root phase of `strongconnect(v)`: when `lowlink[v] == indices[v]`,
pop the stack down to `v` and record the popped component. -/
def tjRoot (v : ν) (st : Tj ν) : Tj ν :=
  if st.lowlink v = (st.indices v).getD 0 then
    { st with
        stack := (popUntil v st.stack).2
        sccs := st.sccs ++ [(popUntil v st.stack).1] }
  else st

/-- `strongconnect(v)`, with fuel bounding the recursion depth (each nested
call is made on a not-yet-indexed node, so depth never exceeds the number of
keys and the fuel given by `find_sccs` is never exhausted). -/
def strongconnect (g : Graph ν) : Nat → ν → Tj ν → Tj ν
  | 0, _, st => st
  | fuel + 1, v, st =>
    tjRoot v
      ((g.succ v).foldl
        (fun (s : Tj ν) w =>
          match s.indices w with
          | none =>
            let s1 := strongconnect g fuel w s
            { s1 with lowlink := fun x =>
                if x = v then min (s1.lowlink v) (s1.lowlink w)
                else s1.lowlink x }
          | some iw =>
            if w ∈ s.stack then
              { s with lowlink := fun x =>
                  if x = v then min (s.lowlink v) iw else s.lowlink x }
            else s)
        (tjPush v st))

/-- The initial Tarjan state. -/
def tarjanInit : Tj ν :=
  { idx := 0, indices := fun _ => none, lowlink := fun _ => 0,
    stack := [], sccs := [] }

/-- `find_sccs`: run `strongconnect` from every not-yet-indexed key. -/
def find_sccs (g : Graph ν) : List (List ν) :=
  (g.keys.foldl
    (fun st v =>
      if (st.indices v).isNone then strongconnect g (g.keys.length + 1) v st
      else st)
    tarjanInit).sccs

/-- `comp_map` lookup: the component of a file — its SCC when it belongs to
one, else the singleton added by the callers of `find_sccs`. -/
def compOf (sccs : List (List ν)) (f : ν) : Finset ν :=
  match sccs.find? (fun c => decide (f ∈ c)) with
  | some c => c.toFinset
  | none => {f}

/-- `all_comps`: the SCCs plus a singleton for every file in no cycle (a
Python `set`, hence deduplicated). -/
def allCompsList (g : Graph ν) : List (Finset ν) :=
  ((find_sccs g).map List.toFinset
    ++ (g.keys.filter
          (fun f => ((find_sccs g).find? (fun c => decide (f ∈ c))).isNone)).map
        (fun f => ({f} : Finset ν))).dedup

/-- The cross-component file edges, one entry per (consumer file, provider
file) pair with distinct components — the pairs enumerated by the
`for consumer, deps in graph.items(): for provider in deps:` loop.  Each
entry is `(provider component, consumer component)`. -/
def edgeList (g : Graph ν) : List (Finset ν × Finset ν) :=
  g.keys.flatMap (fun consumer =>
    (g.succ consumer).filterMap (fun provider =>
      let pc := compOf (find_sccs g) provider
      let cc := compOf (find_sccs g) consumer
      if pc ≠ cc then some (pc, cc) else none))

/-- `comp_out[p]`: the set of consumer components reachable by one condensed
edge from provider component `p` (set-deduplicated). -/
def compSucc (g : Graph ν) (p : Finset ν) : List (Finset ν) :=
  (((edgeList g).filter (fun e => decide (e.1 = p))).map Prod.snd).dedup

/-- `indegree[c]`: incremented once per cross-component *file* edge into
`c` (not per distinct provider component). -/
def indeg0 (g : Graph ν) (c : Finset ν) : Int :=
  (((edgeList g).filter (fun e => decide (e.2 = c))).length : Int)

/-- `estimate_component_weights`: sum of the on-disk byte sizes. -/
def weightOf (size : ν → ℤ) (c : Finset ν) : ℤ := c.sum size

end Tarjan

section CriticalPath

variable {α : Type} [DecidableEq α] {W : Type} [LinearOrder W] [Add W] [One W]

/-- The in-degree map built at the top of `compute_critical_path`. -/
def ccpIndeg (nodes : List α) (succ : α → List α) : α → Int :=
  fun c => nodes.foldl (fun a n => a + ((succ n).count c : Int)) 0

/-- One `q.popleft()` iteration body: decrement each successor, enqueueing
it at the back when its in-degree reaches zero. -/
def decrStep (succ : α → List α) (n : α) :
    (α → Int) × List α → (α → Int) × List α :=
  fun p => (succ n).foldl
    (fun (pr : (α → Int) × List α) c =>
      let d := pr.1 c - 1
      (fun x => if x = c then d else pr.1 x,
       if d = 0 then pr.2 ++ [c] else pr.2))
    p

/-- The Kahn `while q:` loop of `compute_critical_path` (deque: pop front,
append back), with fuel; one pop per iteration, so `nodes.length` fuel
suffices. -/
def kahnLoop (succ : α → List α) : Nat → List α → (α → Int) → List α → List α
  | 0, _, _, topo => topo
  | _ + 1, [], _, topo => topo
  | fuel + 1, n :: q, indeg, topo =>
    let p := decrStep succ n (indeg, q)
    kahnLoop succ fuel p.2 p.1 (topo ++ [n])

/-- The topological order computed inside `compute_critical_path`. -/
def kahnTopo (nodes : List α) (succ : α → List α) : List α :=
  kahnLoop succ nodes.length
    (nodes.filter (fun n => decide (ccpIndeg nodes succ n = 0)))
    (ccpIndeg nodes succ) []

/-- The backwards DP of `compute_critical_path`:
`for n in reversed(topo): for c in dag[n]: cp[n] = max(cp[n], w(n) + cp[c])`
over `cp` initialized to `weight.get(n, 1.0)`. -/
def dpPass (succ : α → List α) (weight : α → Option W) (topo : List α) :
    α → W :=
  topo.reverse.foldl
    (fun cp n =>
      (succ n).foldl
        (fun cp2 c => fun x =>
          if x = n then max (cp2 n) ((weight n).getD 1 + cp2 c) else cp2 x)
        cp)
    (fun n => (weight n).getD 1)

/-- `compute_critical_path(dag, weight)`. -/
def compute_critical_path (nodes : List α) (succ : α → List α)
    (weight : α → Option W) : α → W :=
  dpPass succ weight (kahnTopo nodes succ)

end CriticalPath

section ProcessModules

variable {ν : Type} [DecidableEq ν] {W : Type} [LinearOrder W]

/-- `ready.sort(key=lambda c: -cp_lengths[c])` — a stable sort by descending
critical path. -/
def sortByCp (cp : Finset ν → W) (l : List (Finset ν)) : List (Finset ν) :=
  l.insertionSort (fun a b => cp b ≤ cp a)

/-- The component weight map handed to `compute_critical_path` by
`process_modules` (a dictionary covering exactly `all_comps`). -/
def weightMap (g : Graph ν) (size : ν → ℤ) : Finset ν → Option ℤ :=
  fun c => if c ∈ allCompsList g then some (weightOf size c) else none

/-- The per-component critical-path lengths computed by `process_modules`
(and identically by `schedule`). -/
def cpLengths (g : Graph ν) (size : ν → ℤ) : Finset ν → ℤ :=
  compute_critical_path (allCompsList g) (compSucc g) (weightMap g size)

/-- The `while ready:` loop of `process_modules`: pop the front of the
sorted ready list, append it to the order, decrement its consumers
(appending those that reach zero), re-sort. -/
def pmLoop (cp : Finset ν → W) (csucc : Finset ν → List (Finset ν)) :
    Nat → List (Finset ν) → (Finset ν → Int) → List (Finset ν) →
    List (Finset ν)
  | 0, _, _, acc => acc
  | _ + 1, [], _, acc => acc
  | fuel + 1, c :: ready, indeg, acc =>
    let p := decrStep csucc c (indeg, ready)
    pmLoop cp csucc fuel (sortByCp cp p.2) p.1 (acc ++ [c])

/-- `process_modules(graph)`: SCC collapse, condensed provider→consumer
DAG, weights and critical paths, then Kahn's algorithm draining the ready
list by descending critical path. -/
def process_modules (g : Graph ν) (size : ν → ℤ) : List (Finset ν) :=
  pmLoop (cpLengths g size) (compSucc g) (allCompsList g).length
    (sortByCp (cpLengths g size)
      ((allCompsList g).filter (fun c => decide (indeg0 g c = 0))))
    (indeg0 g) []

end ProcessModules

section Scheduler

variable {ν : Type} [DecidableEq ν] {W : Type} [LinearOrder W] {ρ : Type}

/-- `PriorityQueue.get()` on entries `(-cp[c], c)`: remove the entry with
the largest critical path (on ties, the earliest queued — the source's tie
order on `frozenset` tuples is unspecified, and no theorem below depends on
tie order). -/
def popMax (cp : Finset ν → W) : List (Finset ν) →
    Option (Finset ν × List (Finset ν))
  | [] => none
  | c :: rest =>
    match popMax cp rest with
    | none => some (c, rest)
    | some (b, rem) => if cp b ≤ cp c then some (c, rest) else some (b, c :: rem)

/-- The dispatch loop of `schedule` for a single worker (`max_workers = 1`):
submit the highest-priority ready component, wait, call `fut.result()` —
which re-raises the task's exception, embedded as `Except` propagation —
then decrement dependents and refill the worker slot. -/
def schedLoop (cp : Finset ν → W) (csucc : Finset ν → List (Finset ν))
    (taskFn : Finset ν → Except String ρ) :
    Nat → List (Finset ν) → (Finset ν → Int) → List (Finset ν × ρ) →
    Except String (List (Finset ν × ρ))
  | 0, _, _, acc => .ok acc
  | fuel + 1, ready, indeg, acc =>
    match popMax cp ready with
    | none => .ok acc
    | some (c, rest) =>
      match taskFn c with
      | .error e => .error e
      | .ok r =>
        let p := decrStep csucc c (indeg, rest)
        schedLoop cp csucc taskFn fuel p.2 p.1 (acc ++ [(c, r)])

/-- `schedule(repo_root, max_workers=1, mode)`: the scheduler run with one
worker, over an already-built import graph, with the mode's task function
injected (`Except.error` models a raised exception). -/
def schedule (g : Graph ν) (size : ν → ℤ)
    (taskFn : Finset ν → Except String ρ) :
    Except String (List (Finset ν × ρ)) :=
  schedLoop (cpLengths g size) (compSucc g) taskFn (allCompsList g).length
    ((allCompsList g).filter (fun c => decide (indeg0 g c = 0)))
    (indeg0 g) []

end Scheduler

/-! ## Concrete scenarios

The linear chain of the spec's scenario 1: nodes `0, 1, 2` stand for the
files `a.x, b.x, c.x`; `0` imports `1` and `1` imports `2`; byte sizes are
`100, 200, 300`. -/

/-- The linear-chain import graph (`a → b → c` as `0 → 1 → 2`). -/
def chainG : Graph Nat :=
  ⟨[0, 1, 2], fun n => if n = 0 then [1] else if n = 1 then [2] else []⟩

/-- Byte sizes `100, 200, 300` for the chain. -/
def chainSize : Nat → ℤ :=
  fun n => if n = 0 then 100 else if n = 1 then 200 else 300

/-- C2 counterexample: on the linear chain the critical-path map computed by
`compute_critical_path` over the provider→consumer DAG that
`process_modules` builds is `cp(c) = 600`, `cp(b) = 300`, `cp(a) = 100` —
not `300 / 500 / 600` as claimed (the spec's values belong to the opposite
edge direction).  The claimed conjunction is false on this input. -/
theorem claim_C2_counterexample :
    ¬ (cpLengths chainG chainSize {2} = 300
        ∧ cpLengths chainG chainSize {1} = 500
        ∧ cpLengths chainG chainSize {0} = 600
        ∧ process_modules chainG chainSize = [{2}, {1}, {0}]) := by decide

/-- C2 (amended): on the linear chain the computed critical-path lengths
are `cp(c) = 600`, `cp(b) = 300`, `cp(a) = 100` (the code measures the
longest downstream chain over provider→consumer edges, so the provider end
carries the largest value), and the dispatch order is `c`, then `b`, then
`a` as claimed. -/
theorem claim_C2_chain_values :
    cpLengths chainG chainSize {2} = 600
    ∧ cpLengths chainG chainSize {1} = 300
    ∧ cpLengths chainG chainSize {0} = 100
    ∧ process_modules chainG chainSize = [{2}, {1}, {0}] := by decide

/-- The diamond import graph of the spec's scenario 6: `0 = a` imports
`1 = b` and `2 = c`; `b` and `c` import `3 = d`; all sizes `100`. -/
def diaG : Graph Nat :=
  ⟨[0, 1, 2, 3], fun n => if n = 0 then [1, 2] else if n = 3 then [] else [3]⟩

/-- Byte sizes for the diamond. -/
def diaSize : Nat → ℤ := fun _ => 100

/-- C1 counterexample: in the diamond, when the task for component `{b}`
raises, the scheduler does not isolate the failure: `fut.result()` re-raises
it and `schedule` returns no results at all — the independent component
`{c}` is not processed to completion, refuting the claim on this run
(a single worker). -/
theorem claim_C1_counterexample :
    (schedule diaG diaSize
      (fun c => if c = {1} then Except.error "boom" else Except.ok (0 : Nat))).isOk
    = false := by decide

/-- C1 (amended): a worker exception is not isolated: `schedule` re-raises
it and the run aborts with no results, so no further component — successor
or independent — is dispatched.  Stated for the first dispatched component:
if the highest-priority initially-ready component's task raises `e`,
`schedule` returns exactly `Except.error e`. -/
theorem claim_C1_exception_propagates {ν : Type} [DecidableEq ν] {ρ : Type}
    (g : Graph ν) (size : ν → ℤ) (taskFn : Finset ν → Except String ρ)
    (c : Finset ν) (rest : List (Finset ν)) (e : String)
    (hpop : popMax (cpLengths g size)
        ((allCompsList g).filter (fun c => decide (indeg0 g c = 0)))
      = some (c, rest))
    (he : taskFn c = .error e) :
    schedule g size taskFn = .error e := by
  rw [schedule]
  cases hlen : (allCompsList g).length with
  | zero =>
    rw [List.length_eq_zero] at hlen
    rw [hlen] at hpop
    cases hpop
  | succ fuel =>
    rw [schedLoop, hpop]
    simp only [he]

/-- Witness for the amended C1: in the diamond with a task function whose
call on the first-dispatched component `{d}` raises, `schedule` returns that
exception. -/
theorem claim_C1_witness :
    schedule diaG diaSize
      (fun c => if c = {3} then Except.error "boom" else Except.ok (0 : Nat))
    = .error "boom" :=
  claim_C1_exception_propagates diaG diaSize
    (fun c => if c = {3} then Except.error "boom" else Except.ok (0 : Nat))
    {3} [] "boom" (by decide) (by simp)

/-! ## Producer-before-consumer for `process_modules` (C7)

The loop invariant: a component is appended to the order only when its
in-degree has reached zero, which — because every distinct provider
contributes at least one file edge to the initial in-degree and each
completed provider decrements it exactly once — happens only after every
provider component has been appended. -/

section ProducerFirst

variable {ν : Type} [DecidableEq ν] {W : Type} [LinearOrder W]

/-- The distinct provider components of `c` (the components `p` with a
condensed edge `p → c`). -/
def provsOf (g : Graph ν) (c : Finset ν) : List (Finset ν) :=
  (((edgeList g).filter (fun e => decide (e.2 = c))).map Prod.fst).dedup

theorem mem_compSucc_iff (g : Graph ν) (p c : Finset ν) :
    c ∈ compSucc g p ↔ (p, c) ∈ edgeList g := by
  rw [compSucc, List.mem_dedup, List.mem_map]
  constructor
  · rintro ⟨e, he, rfl⟩
    rw [List.mem_filter] at he
    have h1 : e.1 = p := by simpa using he.2
    rw [← h1]
    exact he.1
  · intro h
    exact ⟨(p, c), List.mem_filter.mpr ⟨h, by simp⟩, rfl⟩

theorem mem_provsOf_iff (g : Graph ν) (p c : Finset ν) :
    p ∈ provsOf g c ↔ (p, c) ∈ edgeList g := by
  rw [provsOf, List.mem_dedup, List.mem_map]
  constructor
  · rintro ⟨e, he, rfl⟩
    rw [List.mem_filter] at he
    have h2 : e.2 = c := by simpa using he.2
    rw [← h2]
    exact he.1
  · intro h
    exact ⟨(p, c), List.mem_filter.mpr ⟨h, by simp⟩, rfl⟩

theorem edgeList_ne (g : Graph ν) (p c : Finset ν) (h : (p, c) ∈ edgeList g) :
    p ≠ c := by
  rw [edgeList, List.mem_flatMap] at h
  obtain ⟨consumer, _, hm⟩ := h
  rw [List.mem_filterMap] at hm
  obtain ⟨provider, _, hf⟩ := hm
  by_cases hne :
      compOf (find_sccs g) provider ≠ compOf (find_sccs g) consumer
  · rw [if_pos hne] at hf
    cases hf
    exact hne
  · rw [if_neg hne] at hf
    cases hf

/-- The in-degree of a component is at least its number of distinct
providers: each provider contributes at least one file edge. -/
theorem provsOf_length_le_indeg (g : Graph ν) (c : Finset ν) :
    ((provsOf g c).length : Int) ≤ indeg0 g c := by
  rw [provsOf, indeg0]
  have h1 := List.Sublist.length_le
    (List.dedup_sublist
      (((edgeList g).filter (fun e => decide (e.2 = c))).map Prod.fst))
  rw [List.length_map] at h1
  exact_mod_cast h1

/-- `indeg0 g c = 0` means `c` has no provider at all. -/
theorem provsOf_eq_nil_of_indeg0 (g : Graph ν) (c : Finset ν)
    (h : indeg0 g c = 0) : provsOf g c = [] := by
  rw [indeg0] at h
  rw [provsOf]
  have hlen : ((edgeList g).filter (fun e => decide (e.2 = c))).length = 0 := by
    exact_mod_cast h
  rw [List.length_eq_zero] at hlen
  rw [hlen]
  rfl

/-- Exact characterization of `decrStep` on a duplicate-free successor
list: every successor's in-degree drops by one, and exactly the successors
whose in-degree reaches zero are appended (in order) to the queue. -/
theorem decrStep_spec {C : Type} [DecidableEq C] (succ : C → List C) (n : C)
    (hnd : (succ n).Nodup) (indeg : C → Int) (q : List C) :
    decrStep succ n (indeg, q)
    = (fun x => if x ∈ succ n then indeg x - 1 else indeg x,
       q ++ (succ n).filter (fun d => decide (indeg d - 1 = 0))) := by
  rw [decrStep]
  generalize hl : succ n = l at hnd
  clear hl
  induction l generalizing indeg q with
  | nil =>
    refine Prod.ext ?_ ?_
    · funext x
      simp
    · simp
  | cons c rest ih =>
    rw [List.foldl_cons]
    have hrest : rest.Nodup := hnd.of_cons
    have hcr : c ∉ rest := by
      intro hmem
      exact (List.nodup_cons.mp hnd).1 hmem
    refine Eq.trans
      (ih (fun x => if x = c then indeg c - 1 else indeg x)
          (if indeg c - 1 = 0 then q ++ [c] else q) hrest) ?_
    refine Prod.ext ?_ ?_
    · funext x
      by_cases hx : x = c
      · subst hx
        simp [hcr]
      · by_cases hxr : x ∈ rest <;> simp [hx, hxr]
    · have hfc : rest.filter
            (fun d => decide ((fun x => if x = c then indeg c - 1 else indeg x) d - 1 = 0))
          = rest.filter (fun d => decide (indeg d - 1 = 0)) := by
        refine List.filter_congr ?_
        intro d hd
        have hdc : d ≠ c := fun hdc => hcr (hdc ▸ hd)
        simp [hdc]
      simp only [hfc, List.filter_cons]
      by_cases hc : indeg c - 1 = 0 <;> simp [hc]

/-- Splitting a list extended by one element: the split point is either the
new last element or inside the old list. -/
theorem split_of_append_singleton {C : Type} {acc l₁ l₂ : List C} {c c₀ : C}
    (h : acc ++ [c₀] = l₁ ++ c :: l₂) :
    (l₁ = acc ∧ c = c₀ ∧ l₂ = []) ∨
    ∃ l₂', acc = l₁ ++ c :: l₂' ∧ l₂ = l₂' ++ [c₀] := by
  rcases List.eq_nil_or_concat l₂ with rfl | ⟨l₂', a, rfl⟩
  · left
    have h2 := List.append_inj' h (by rfl)
    refine ⟨h2.1.symm, ?_, rfl⟩
    have := h2.2
    simpa using this.symm
  · right
    rw [List.concat_eq_append, ← List.cons_append, ← List.append_assoc] at h
    have h2 := List.append_inj' h (by rfl)
    have ha : c₀ = a := by simpa using h2.2
    exact ⟨l₂', by rw [h2.1], by rw [List.concat_eq_append, ha]⟩

theorem compSucc_nodup (g : Graph ν) (p : Finset ν) : (compSucc g p).Nodup := by
  rw [compSucc]
  exact List.nodup_dedup _

theorem provsOf_nodup (g : Graph ν) (c : Finset ν) : (provsOf g c).Nodup := by
  rw [provsOf]
  exact List.nodup_dedup _

omit [DecidableEq ν] in
theorem sortByCp_perm (cp : Finset ν → W) (l : List (Finset ν)) :
    List.Perm (sortByCp cp l) l :=
  List.perm_insertionSort _ l

theorem allCompsList_nodup (g : Graph ν) : (allCompsList g).Nodup := by
  rw [allCompsList]
  exact List.nodup_dedup _

/-- The `process_modules` loop invariant: with a duplicate-free state whose
in-degrees dominate the number of not-yet-ordered providers and whose ready
and ordered components already have all providers ordered, every component
the loop emits is preceded by all of its providers. -/
theorem pmLoop_producer_first (g : Graph ν) (cp : Finset ν → W) :
    ∀ (fuel : Nat) (ready : List (Finset ν)) (indeg : Finset ν → Int)
      (acc : List (Finset ν)),
    (acc ++ ready).Nodup →
    (∀ c, (((provsOf g c).filter (fun p => decide (p ∉ acc))).length : Int)
      ≤ indeg c) →
    (∀ c, c ∈ acc ++ ready → ∀ p ∈ provsOf g c, p ∈ acc) →
    (∀ l₁ c l₂, acc = l₁ ++ c :: l₂ → ∀ p ∈ provsOf g c, p ∈ l₁) →
    ∀ l₁ c l₂,
      pmLoop cp (compSucc g) fuel ready indeg acc = l₁ ++ c :: l₂ →
      ∀ p ∈ provsOf g c, p ∈ l₁ := by
  intro fuel
  induction fuel with
  | zero =>
    intro ready indeg acc _ _ _ h4 l₁ c l₂ heq
    rw [pmLoop] at heq
    exact h4 l₁ c l₂ heq
  | succ fuel ih =>
    intro ready indeg acc h1 h2 h3 h4 l₁ c l₂ heq
    cases ready with
    | nil =>
      rw [pmLoop] at heq
      exact h4 l₁ c l₂ heq
    | cons c₀ rest =>
      rw [pmLoop,
        decrStep_spec (compSucc g) c₀ (compSucc_nodup g c₀) indeg rest] at heq
      dsimp only at heq
      set indeg' : Finset ν → Int :=
        fun x => if x ∈ compSucc g c₀ then indeg x - 1 else indeg x with hindeg'
      set newcs : List (Finset ν) :=
        (compSucc g c₀).filter (fun d => decide (indeg d - 1 = 0)) with hnewcs
      have hc₀acc : c₀ ∉ acc := by
        intro hmem
        exact List.disjoint_of_nodup_append h1 hmem (List.mem_cons_self c₀ rest)
      have hprovc₀ : ∀ p ∈ provsOf g c₀, p ∈ acc :=
        h3 c₀ (List.mem_append_right acc (List.mem_cons_self c₀ rest))
      have hnew : ∀ d ∈ newcs, c₀ ∈ provsOf g d ∧ indeg d = 1 := by
        intro d hd
        rw [hnewcs, List.mem_filter] at hd
        refine ⟨(mem_provsOf_iff g c₀ d).mpr ((mem_compSucc_iff g c₀ d).mp hd.1), ?_⟩
        have := of_decide_eq_true hd.2
        omega
      have hnotold : ∀ d ∈ newcs, d ∉ acc ++ c₀ :: rest := by
        intro d hd hmem
        exact hc₀acc (h3 d hmem c₀ (hnew d hd).1)
      -- (I2) for the new state
      have h2' : ∀ c,
          (((provsOf g c).filter
              (fun p => decide (p ∉ acc ++ [c₀]))).length : Int) ≤ indeg' c := by
        intro c
        have hpred : (fun p : Finset ν => decide (p ∉ acc ++ [c₀]))
            = fun p => (decide (¬ p = c₀) && decide (p ∉ acc)) := by
          funext p
          by_cases hpa : p ∈ acc <;> by_cases hpc : p = c₀ <;>
            simp [hpa, hpc, List.mem_append]
        rw [hpred, ← List.filter_filter]
        set F : List (Finset ν) :=
          (provsOf g c).filter (fun p => decide (p ∉ acc)) with hF
        by_cases hc : c ∈ compSucc g c₀
        · have hc₀F : c₀ ∈ F := by
            rw [hF, List.mem_filter]
            exact ⟨(mem_provsOf_iff g c₀ c).mpr ((mem_compSucc_iff g c₀ c).mp hc),
              decide_eq_true hc₀acc⟩
          have hFnd : F.Nodup := (provsOf_nodup g c).filter _
          have hsplit := @List.length_eq_length_filter_add (Finset ν) F
            (fun p => decide (p = c₀))
          have hcount : (F.filter (fun p => decide (p = c₀))).length = 1 := by
            have h5 : List.count c₀ F = 1 :=
              List.count_eq_one_of_mem hFnd hc₀F
            rw [List.count, List.countP_eq_length_filter] at h5
            have : (F.filter (fun p => p == c₀)) =
                (F.filter (fun p => decide (p = c₀))) := by
              apply List.filter_congr
              intro p _
              rfl
            rw [← this]
            exact h5
          have hnot : (F.filter (fun p => !(decide (p = c₀)))).length
              = (F.filter (fun p => decide (¬ p = c₀))).length := by
            congr 1
            apply List.filter_congr
            intro p _
            simp
          have hle := h2 c
          rw [← hF] at hle
          have hind : indeg' c = indeg c - 1 := if_pos hc
          rw [hind]
          rw [hcount, hnot] at hsplit
          omega
        · have hind : indeg' c = indeg c := if_neg hc
          rw [hind]
          have hle := h2 c
          rw [← hF] at hle
          have hsub : (F.filter (fun p => decide (¬ p = c₀))).length ≤ F.length :=
            List.length_filter_le _ _
          omega
      -- (I1) for the new state
      have hperm : List.Perm ((acc ++ [c₀]) ++ sortByCp cp (rest ++ newcs))
          ((acc ++ c₀ :: rest) ++ newcs) := by
        refine List.Perm.trans
          (List.Perm.append_left (acc ++ [c₀]) (sortByCp_perm cp _)) ?_
        have heqlist : (acc ++ [c₀]) ++ (rest ++ newcs)
            = (acc ++ c₀ :: rest) ++ newcs := by
          simp
        exact heqlist ▸ List.Perm.refl _
      have h1' : ((acc ++ [c₀]) ++ sortByCp cp (rest ++ newcs)).Nodup := by
        refine (List.Perm.nodup_iff hperm).mpr ?_
        refine List.Nodup.append h1 ((compSucc_nodup g c₀).filter _) ?_
        intro a ha hanew
        exact hnotold a hanew ha
      -- (I3) for the new state
      have h3' : ∀ c, c ∈ (acc ++ [c₀]) ++ sortByCp cp (rest ++ newcs) →
          ∀ p ∈ provsOf g c, p ∈ acc ++ [c₀] := by
        intro c hcmem p hp
        rcases List.mem_append.mp hcmem with hcl | hcr
        · rcases List.mem_append.mp hcl with hca | hcc
          · exact List.mem_append_left _ (h3 c (List.mem_append_left _ hca) p hp)
          · have : c = c₀ := List.mem_singleton.mp hcc
            subst this
            exact List.mem_append_left _ (hprovc₀ p hp)
        · have hcr2 : c ∈ rest ++ newcs :=
            (sortByCp_perm cp (rest ++ newcs)).mem_iff.mp hcr
          rcases List.mem_append.mp hcr2 with hcrest | hcnew
          · exact List.mem_append_left _
              (h3 c (List.mem_append_right _ (List.mem_cons_of_mem c₀ hcrest)) p hp)
          · by_contra hpnot
            have hpF : p ∈ (provsOf g c).filter
                (fun p => decide (p ∉ acc ++ [c₀])) :=
              List.mem_filter.mpr ⟨hp, decide_eq_true hpnot⟩
            have hpos : 1 ≤ (((provsOf g c).filter
                (fun p => decide (p ∉ acc ++ [c₀]))).length : Int) := by
              have := List.length_pos.mpr (List.ne_nil_of_mem hpF)
              omega
            have hle := h2' c
            have hcc : c ∈ compSucc g c₀ := by
              rw [hnewcs, List.mem_filter] at hcnew
              exact hcnew.1
            have hind : indeg' c = 0 := by
              have hi : indeg' c = indeg c - 1 := if_pos hcc
              have := (hnew c hcnew).2
              omega
            rw [hind] at hle
            omega
      -- (I4) for the new state
      have h4' : ∀ l₁ c l₂, acc ++ [c₀] = l₁ ++ c :: l₂ →
          ∀ p ∈ provsOf g c, p ∈ l₁ := by
        intro l₁ c l₂ hsp p hp
        rcases split_of_append_singleton hsp with ⟨rfl, rfl, rfl⟩ | ⟨l₂', hacc, _⟩
        · exact hprovc₀ p hp
        · exact h4 l₁ c l₂' hacc p hp
      exact ih (sortByCp cp (rest ++ newcs)) indeg' (acc ++ [c₀])
        h1' h2' h3' h4' l₁ c l₂ heq

/-- C7: in the component ordering returned by `process_modules`, every
provider component appears strictly before every component that depends on
it: whenever the condensed DAG has an edge `p → c` and the order is split
around `c`, the provider `p` lies in the prefix. -/
theorem claim_C7_producer_before_consumer (g : Graph ν) (size : ν → ℤ)
    (p c : Finset ν) (hedge : c ∈ compSucc g p)
    (l₁ : List (Finset ν)) (l₂ : List (Finset ν))
    (hsp : process_modules g size = l₁ ++ c :: l₂) :
    p ∈ l₁ := by
  have hp : p ∈ provsOf g c :=
    (mem_provsOf_iff g p c).mpr ((mem_compSucc_iff g p c).mp hedge)
  rw [process_modules] at hsp
  refine pmLoop_producer_first g (cpLengths g size) (allCompsList g).length
    (sortByCp (cpLengths g size)
      ((allCompsList g).filter (fun c => decide (indeg0 g c = 0))))
    (indeg0 g) [] ?_ ?_ ?_ ?_ l₁ c l₂ hsp p hp
  · rw [List.nil_append]
    exact (List.Perm.nodup_iff (sortByCp_perm _ _)).mpr
      ((allCompsList_nodup g).filter _)
  · intro c'
    have hid : (provsOf g c').filter
        (fun p => decide (p ∉ ([] : List (Finset ν)))) = provsOf g c' := by
      apply List.filter_eq_self.mpr
      intro a _
      simp
    rw [hid]
    exact provsOf_length_le_indeg g c'
  · intro c' hc' p' hp'
    rw [List.nil_append] at hc'
    have hc'f : c' ∈ (allCompsList g).filter
        (fun c => decide (indeg0 g c = 0)) :=
      (sortByCp_perm _ _).mem_iff.mp hc'
    rw [List.mem_filter] at hc'f
    have h0 : indeg0 g c' = 0 := of_decide_eq_true hc'f.2
    rw [provsOf_eq_nil_of_indeg0 g c' h0] at hp'
    cases hp'
  · intro l₁' c' l₂' habs
    exact absurd habs (by simp)

/-- Witness for C7 on the linear chain: the condensed edge `{c} → {b}`
has its provider `{c}` in the prefix before `{b}`. -/
theorem claim_C7_witness :
    (({1} : Finset Nat) ∈ compSucc chainG {2}) ∧
    ({2} : Finset Nat) ∈ [({2} : Finset Nat)] :=
  ⟨by decide,
   claim_C7_producer_before_consumer chainG chainSize
     {2} {1} (by decide) [{2}] [{0}] (by decide)⟩

end ProducerFirst

/-! ## Critical-path bounds for `compute_critical_path` (C6)

First Kahn's sort inside `compute_critical_path` is shown to emit every
node of an acyclic well-formed DAG exactly once, in an order where every
edge points forward; then the reverse DP is shown to establish
`cp(c) ≥ w(c)` and `cp(c) ≥ w(c) + cp(c')` for every edge `c → c'`. -/

section KahnSort

variable {α : Type} [DecidableEq α]

/-- A witness order certifying acyclicity: duplicate-free, covering the
nodes, with every edge pointing forward. -/
def IsTopoOrder (nodes : List α) (succ : α → List α) (order : List α) : Prop :=
  order.Nodup ∧ (∀ n ∈ nodes, n ∈ order) ∧
    ∀ u ∈ nodes, ∀ v ∈ succ u, order.indexOf u < order.indexOf v

/-- A dictionary-of-sets DAG is acyclic iff some topological order of its
nodes exists. -/
def AcyclicDag (nodes : List α) (succ : α → List α) : Prop :=
  ∃ order, IsTopoOrder nodes succ order

omit [DecidableEq α] in
theorem foldl_add_eq_sum (f : α → Int) (l : List α) (a : Int) :
    l.foldl (fun a n => a + f n) a = a + (l.map f).sum := by
  induction l generalizing a with
  | nil => simp
  | cons n rest ih =>
    rw [List.foldl_cons, ih, List.map_cons, List.sum_cons]
    omega

theorem ccpIndeg_eq_sum (nodes : List α) (succ : α → List α) (c : α) :
    ccpIndeg nodes succ c
      = (nodes.map (fun n => ((succ n).count c : Int))).sum := by
  rw [ccpIndeg, foldl_add_eq_sum]
  omega

omit [DecidableEq α] in
theorem sum_map_split (f : α → Int) (p : α → Bool) (l : List α) :
    (l.map f).sum = ((l.filter p).map f).sum
      + ((l.filter (fun x => !p x)).map f).sum := by
  induction l with
  | nil => simp
  | cons x rest ih =>
    cases hx : p x <;>
      simp only [List.map_cons, List.sum_cons, List.filter_cons, hx,
        Bool.not_true, Bool.not_false, if_true, if_false] <;>
      rw [ih] <;> simp <;> omega

omit [DecidableEq α] in
theorem nonneg_sum_zero (f : α → Int) (l : List α)
    (hf : ∀ x ∈ l, 0 ≤ f x) (h : (l.map f).sum = 0) : ∀ x ∈ l, f x = 0 := by
  induction l with
  | nil => intro x hx; cases hx
  | cons y rest ih =>
    rw [List.map_cons, List.sum_cons] at h
    have hy : 0 ≤ f y := hf y (List.mem_cons_self y rest)
    have hrest : 0 ≤ (rest.map f).sum := by
      apply List.sum_nonneg
      intro x hx
      rw [List.mem_map] at hx
      obtain ⟨z, hz, rfl⟩ := hx
      exact hf z (List.mem_cons_of_mem y hz)
    intro x hx
    rcases List.mem_cons.mp hx with rfl | hx'
    · omega
    · exact ih (fun z hz => hf z (List.mem_cons_of_mem y hz))
        (by omega) x hx'

theorem filter_mem_perm {topo nodes : List α} (ht : topo.Nodup)
    (hn : nodes.Nodup) (hsub : ∀ x ∈ topo, x ∈ nodes) :
    List.Perm (nodes.filter (fun x => decide (x ∈ topo))) topo := by
  apply List.perm_of_nodup_nodup_toFinset_eq (hn.filter _) ht
  ext x
  simp only [List.mem_toFinset, List.mem_filter]
  constructor
  · rintro ⟨_, hx⟩
    exact of_decide_eq_true hx
  · intro hx
    exact ⟨hsub x hx, decide_eq_true hx⟩

/-- The popped contributions to a node's in-degree: one per occurrence of
the node among a popped node's successors. -/
def poppedContrib (succ : α → List α) (topo : List α) (c : α) : Int :=
  (topo.map (fun n => ((succ n).count c : Int))).sum

/-- If a node's remaining in-degree is zero, every one of its predecessors
has already been popped. -/
theorem preds_popped_of_indeg_zero (nodes : List α) (succ : α → List α)
    (hn : nodes.Nodup) (topo : List α) (ht : topo.Nodup)
    (hsub : ∀ x ∈ topo, x ∈ nodes) (c : α)
    (hz : ccpIndeg nodes succ c - poppedContrib succ topo c = 0) :
    ∀ u ∈ nodes, c ∈ succ u → u ∈ topo := by
  intro u hu hc
  have hperm := filter_mem_perm ht hn hsub
  have hsum : ((nodes.filter (fun x => decide (x ∈ topo))).map
      (fun n => ((succ n).count c : Int))).sum = poppedContrib succ topo c :=
    (hperm.map _).sum_eq
  have hsplit := sum_map_split (fun n => ((succ n).count c : Int))
    (fun x => decide (x ∈ topo)) nodes
  rw [ccpIndeg_eq_sum, hsplit, hsum] at hz
  have hzero : ∀ x ∈ nodes.filter (fun x => !decide (x ∈ topo)),
      ((succ x).count c : Int) = 0 := by
    apply nonneg_sum_zero
    · intro x _
      positivity
    · omega
  by_contra hutopo
  have hin : u ∈ nodes.filter (fun x => !decide (x ∈ topo)) :=
    List.mem_filter.mpr ⟨hu, by simp [hutopo]⟩
  have := hzero u hin
  have hpos : 0 < (succ u).count c := List.count_pos_iff.mpr hc
  omega

/-- Conversely, once every predecessor has been popped the remaining
in-degree is zero. -/
theorem indeg_zero_of_preds_popped (nodes : List α) (succ : α → List α)
    (hn : nodes.Nodup) (topo : List α) (ht : topo.Nodup)
    (hsub : ∀ x ∈ topo, x ∈ nodes) (c : α)
    (hp : ∀ u ∈ nodes, c ∈ succ u → u ∈ topo) :
    ccpIndeg nodes succ c - poppedContrib succ topo c = 0 := by
  have hperm := filter_mem_perm ht hn hsub
  have hsum : ((nodes.filter (fun x => decide (x ∈ topo))).map
      (fun n => ((succ n).count c : Int))).sum = poppedContrib succ topo c :=
    (hperm.map _).sum_eq
  have hsplit := sum_map_split (fun n => ((succ n).count c : Int))
    (fun x => decide (x ∈ topo)) nodes
  have hzero : ((nodes.filter (fun x => !decide (x ∈ topo))).map
      (fun n => ((succ n).count c : Int))).sum = 0 := by
    have : ∀ x ∈ nodes.filter (fun x => !decide (x ∈ topo)),
        ((succ x).count c : Int) = 0 := by
      intro x hx
      rw [List.mem_filter] at hx
      have hxt : x ∉ topo := by
        have := hx.2
        simp only [Bool.not_eq_true'] at this
        exact of_decide_eq_false this
      have hxc : c ∉ succ x := fun hc => hxt (hp x hx.1 hc)
      rw [List.count_eq_zero.mpr hxc]
      rfl
    calc ((nodes.filter (fun x => !decide (x ∈ topo))).map
        (fun n => ((succ n).count c : Int))).sum
        = ((nodes.filter (fun x => !decide (x ∈ topo))).map
            (fun _ => (0 : Int))).sum := by
          apply congrArg
          exact List.map_congr_left this
      _ = 0 := by simp
  rw [ccpIndeg_eq_sum, hsplit, hsum, hzero]
  omega

/-- The Kahn loop of `compute_critical_path` under its invariants: the
result is duplicate-free, lies in the node set, covers it (acyclicity makes
the loop drain everything), and every edge out of an emitted node points
into its suffix. -/
theorem kahnLoop_invariant (nodes : List α) (succ : α → List α)
    (hnd : nodes.Nodup) (hcl : ∀ n ∈ nodes, ∀ v ∈ succ n, v ∈ nodes)
    (hsnd : ∀ n, (succ n).Nodup) (hacy : AcyclicDag nodes succ) :
    ∀ (fuel : Nat) (q : List α) (indeg : α → Int) (topo : List α),
    nodes.length ≤ fuel + topo.length →
    (topo ++ q).Nodup →
    (∀ x ∈ topo ++ q, x ∈ nodes) →
    (∀ c, indeg c = ccpIndeg nodes succ c - poppedContrib succ topo c) →
    (∀ c ∈ nodes, indeg c = 0 → c ∈ topo ∨ c ∈ q) →
    (∀ v ∈ topo ++ q, ∀ u ∈ nodes, v ∈ succ u → u ∈ topo) →
    (∀ l₁ u l₂, topo = l₁ ++ u :: l₂ → ∀ v ∈ succ u, v ∈ topo ++ [] → v ∈ l₂) →
    (kahnLoop succ fuel q indeg topo).Nodup ∧
    (∀ x ∈ kahnLoop succ fuel q indeg topo, x ∈ nodes) ∧
    (∀ x ∈ nodes, x ∈ kahnLoop succ fuel q indeg topo) ∧
    (∀ l₁ u l₂, kahnLoop succ fuel q indeg topo = l₁ ++ u :: l₂ →
      ∀ v ∈ succ u, v ∈ kahnLoop succ fuel q indeg topo → v ∈ l₂) := by
  intro fuel
  induction fuel with
  | zero =>
    intro q indeg topo hfuel h1 h2 _ _ _ h6
    rw [kahnLoop]
    have htn : topo.Nodup := h1.of_append_left
    have hsub : topo.toFinset ⊆ nodes.toFinset := by
      intro x hx
      rw [List.mem_toFinset] at hx ⊢
      exact h2 x (List.mem_append_left _ hx)
    have hcard : nodes.toFinset.card ≤ topo.toFinset.card := by
      rw [List.toFinset_card_of_nodup htn, List.toFinset_card_of_nodup hnd]
      omega
    have heq := Finset.eq_of_subset_of_card_le hsub hcard
    refine ⟨htn, fun x hx => h2 x (List.mem_append_left _ hx), ?_, ?_⟩
    · intro x hx
      have : x ∈ topo.toFinset := by
        rw [heq, List.mem_toFinset]
        exact hx
      rwa [List.mem_toFinset] at this
    · intro l₁ u l₂ hsp v hv hvt
      exact h6 l₁ u l₂ hsp v hv (by simpa using hvt)
  | succ fuel ih =>
    intro q indeg topo hfuel h1 h2 h3 h4 h5 h6
    cases q with
    | nil =>
      rw [kahnLoop]
      have htn : topo.Nodup := by simpa using h1
      refine ⟨htn, fun x hx => h2 x (List.mem_append_left _ hx), ?_, ?_⟩
      · intro x hx
        by_contra hxt
        obtain ⟨ord, hond, hocov, holt⟩ := hacy
        have hRne : x ∈ nodes.filter (fun n => decide (n ∉ topo)) :=
          List.mem_filter.mpr ⟨hx, decide_eq_true hxt⟩
        obtain ⟨m, hm⟩ : ∃ m, (nodes.filter (fun n => decide (n ∉ topo))).argmin
            (fun r => ord.indexOf r) = some m := by
          cases harg : (nodes.filter (fun n => decide (n ∉ topo))).argmin
              (fun r => ord.indexOf r) with
          | none =>
            exact absurd (List.argmin_eq_none.mp harg) (List.ne_nil_of_mem hRne)
          | some m => exact ⟨m, rfl⟩
        have hmm : m ∈ (nodes.filter (fun n => decide (n ∉ topo))).argmin
            (fun r => ord.indexOf r) := by
          rw [hm]
          rfl
        have hmR := List.argmin_mem hmm
        rw [List.mem_filter] at hmR
        have hmnodes : m ∈ nodes := hmR.1
        have hmtopo : m ∉ topo := of_decide_eq_true hmR.2
        have hpreds : ∀ u ∈ nodes, m ∈ succ u → u ∈ topo := by
          intro u hu hmu
          by_contra hut
          have huR : u ∈ nodes.filter (fun n => decide (n ∉ topo)) :=
            List.mem_filter.mpr ⟨hu, decide_eq_true hut⟩
          have hnotlt := List.not_lt_of_mem_argmin huR hmm
          exact hnotlt (holt u hu m hmu)
        have hz := indeg_zero_of_preds_popped nodes succ hnd topo htn
          (fun x hx => h2 x (List.mem_append_left _ hx)) m hpreds
        have := h4 m hmnodes (by rw [h3 m]; exact hz)
        rcases this with h | h
        · exact hmtopo h
        · cases h
      · intro l₁ u l₂ hsp v hv hvt
        exact h6 l₁ u l₂ hsp v hv (by simpa using hvt)
    | cons n q' =>
      rw [kahnLoop, decrStep_spec succ n (hsnd n) indeg q']
      dsimp only
      set indeg' : α → Int :=
        fun x => if x ∈ succ n then indeg x - 1 else indeg x with hindeg'
      set newq : List α :=
        (succ n).filter (fun d => decide (indeg d - 1 = 0)) with hnewq
      have hnn : n ∈ nodes := h2 n (List.mem_append_right _ (List.mem_cons_self n q'))
      have hnt : n ∉ topo := by
        intro hmem
        exact List.disjoint_of_nodup_append h1 hmem (List.mem_cons_self n q')
      have htopo'nd : (topo ++ [n]).Nodup := by
        have : (topo ++ [n]).Sublist (topo ++ n :: q') := by
          apply List.Sublist.append_left
          exact (List.singleton_sublist.mpr (List.mem_cons_self n q'))
        exact this.nodup h1
      have htopo'sub : ∀ x ∈ topo ++ [n], x ∈ nodes := by
        intro x hx
        rcases List.mem_append.mp hx with hx | hx
        · exact h2 x (List.mem_append_left _ hx)
        · rw [List.mem_singleton] at hx
          subst hx
          exact hnn
      have h3' : ∀ c, indeg' c
          = ccpIndeg nodes succ c - poppedContrib succ (topo ++ [n]) c := by
        intro c
        have hpc : poppedContrib succ (topo ++ [n]) c
            = poppedContrib succ topo c + ((succ n).count c : Int) := by
          rw [poppedContrib, poppedContrib, List.map_append, List.sum_append]
          simp
        rw [hpc]
        by_cases hc : c ∈ succ n
        · have hone : (succ n).count c = 1 :=
            List.count_eq_one_of_mem (hsnd n) hc
          have : indeg' c = indeg c - 1 := if_pos hc
          rw [this, h3 c, hone]
          omega
        · have hzero : (succ n).count c = 0 := List.count_eq_zero.mpr hc
          have : indeg' c = indeg c := if_neg hc
          rw [this, h3 c, hzero]
          omega
      have hnewmem : ∀ d ∈ newq, d ∈ succ n ∧ indeg d = 1 := by
        intro d hd
        rw [hnewq, List.mem_filter] at hd
        have := of_decide_eq_true hd.2
        exact ⟨hd.1, by omega⟩
      have hnewnotold : ∀ d ∈ newq, d ∉ topo ++ n :: q' := by
        intro d hd hmem
        exact hnt (h5 d hmem n hnn (hnewmem d hd).1)
      have h1' : ((topo ++ [n]) ++ (q' ++ newq)).Nodup := by
        have heqlist : (topo ++ [n]) ++ q' = topo ++ n :: q' := by
          simp
        have hold : ((topo ++ [n]) ++ q').Nodup := by
          rw [heqlist]
          exact h1
        have hnewnd : newq.Nodup := (hsnd n).filter _
        rw [← List.append_assoc]
        refine List.Nodup.append hold hnewnd ?_
        intro a ha hanew
        rw [heqlist] at ha
        exact hnewnotold a hanew ha
      have h2' : ∀ x ∈ (topo ++ [n]) ++ (q' ++ newq), x ∈ nodes := by
        intro x hx
        rcases List.mem_append.mp hx with hx | hx
        · exact htopo'sub x hx
        · rcases List.mem_append.mp hx with hx | hx
          · exact h2 x (List.mem_append_right _ (List.mem_cons_of_mem n hx))
          · exact hcl n hnn x (hnewmem x hx).1
      have h4' : ∀ c ∈ nodes, indeg' c = 0 → c ∈ topo ++ [n] ∨ c ∈ q' ++ newq := by
        intro c hc hz
        by_cases hcs : c ∈ succ n
        · right
          refine List.mem_append_right _ ?_
          rw [hnewq, List.mem_filter]
          refine ⟨hcs, decide_eq_true ?_⟩
          have : indeg' c = indeg c - 1 := if_pos hcs
          omega
        · have : indeg' c = indeg c := if_neg hcs
          rcases h4 c hc (by omega) with h | h
          · exact Or.inl (List.mem_append_left _ h)
          · rcases List.mem_cons.mp h with rfl | h
            · exact Or.inl (List.mem_append_right _ (List.mem_singleton.mpr rfl))
            · exact Or.inr (List.mem_append_left _ h)
      have h5' : ∀ v ∈ (topo ++ [n]) ++ (q' ++ newq), ∀ u ∈ nodes,
          v ∈ succ u → u ∈ topo ++ [n] := by
        intro v hv u hu hvu
        rcases List.mem_append.mp hv with hv | hv
        · rcases List.mem_append.mp hv with hv | hv
          · exact List.mem_append_left _
              (h5 v (List.mem_append_left _ hv) u hu hvu)
          · rw [List.mem_singleton] at hv
            subst hv
            exact List.mem_append_left _
              (h5 v (List.mem_append_right _ (List.mem_cons_self v q')) u hu hvu)
        · rcases List.mem_append.mp hv with hv | hv
          · exact List.mem_append_left _
              (h5 v (List.mem_append_right _ (List.mem_cons_of_mem n hv)) u hu hvu)
          · have hz : indeg' v = 0 := by
              have hvs : v ∈ succ n := (hnewmem v hv).1
              have h1v : indeg v = 1 := (hnewmem v hv).2
              have : indeg' v = indeg v - 1 := if_pos hvs
              omega
            refine preds_popped_of_indeg_zero nodes succ hnd (topo ++ [n])
              htopo'nd htopo'sub v ?_ u hu hvu
            rw [h3' v] at hz
            omega
      have h6' : ∀ l₁ u l₂, topo ++ [n] = l₁ ++ u :: l₂ →
          ∀ v ∈ succ u, v ∈ (topo ++ [n]) ++ [] → v ∈ l₂ := by
        intro l₁ u l₂ hsp v hv hvt
        rw [List.append_nil] at hvt
        rcases split_of_append_singleton hsp with ⟨rfl, rfl, rfl⟩ | ⟨l₂', hteq, rfl⟩
        · exfalso
          rcases List.mem_append.mp hvt with hvtop | hvn
          · exact hnt (h5 v (List.mem_append_left _ hvtop) u hnn hv)
          · rw [List.mem_singleton] at hvn
            subst hvn
            exact hnt (h5 v
              (List.mem_append_right _ (List.mem_cons_self v q')) v hnn hv)
        · rcases List.mem_append.mp hvt with hvtop | hvn
          · exact List.mem_append_left _
              (h6 l₁ u l₂' hteq v hv (by simpa using hvtop))
          · rw [List.mem_singleton] at hvn
            subst hvn
            exact List.mem_append_right _ (List.mem_singleton.mpr rfl)
      have hfuel' : nodes.length ≤ fuel + (topo ++ [n]).length := by
        rw [List.length_append, List.length_singleton]
        omega
      exact ih (q' ++ newq) indeg' (topo ++ [n]) hfuel' h1' h2' h3' h4' h5' h6'

/-- The topological order computed inside `compute_critical_path` on an
acyclic well-formed DAG: duplicate-free, exactly the node set, with every
edge pointing into the suffix. -/
theorem kahnTopo_spec (nodes : List α) (succ : α → List α)
    (hnd : nodes.Nodup) (hcl : ∀ n ∈ nodes, ∀ v ∈ succ n, v ∈ nodes)
    (hsnd : ∀ n, (succ n).Nodup) (hacy : AcyclicDag nodes succ) :
    (kahnTopo nodes succ).Nodup ∧
    (∀ x ∈ kahnTopo nodes succ, x ∈ nodes) ∧
    (∀ x ∈ nodes, x ∈ kahnTopo nodes succ) ∧
    (∀ l₁ u l₂, kahnTopo nodes succ = l₁ ++ u :: l₂ →
      ∀ v ∈ succ u, v ∈ kahnTopo nodes succ → v ∈ l₂) := by
  rw [kahnTopo]
  refine kahnLoop_invariant nodes succ hnd hcl hsnd hacy nodes.length
    (nodes.filter (fun n => decide (ccpIndeg nodes succ n = 0)))
    (ccpIndeg nodes succ) [] (by simp) ?_ ?_ ?_ ?_ ?_ ?_
  · rw [List.nil_append]
    exact hnd.filter _
  · intro x hx
    rw [List.nil_append, List.mem_filter] at hx
    exact hx.1
  · intro c
    rw [poppedContrib]
    simp
  · intro c hc hz
    right
    exact List.mem_filter.mpr ⟨hc, decide_eq_true hz⟩
  · intro v hv u hu hvu
    rw [List.nil_append, List.mem_filter] at hv
    have hz : ccpIndeg nodes succ v - poppedContrib succ [] v = 0 := by
      have := of_decide_eq_true hv.2
      rw [poppedContrib]
      simp [this]
    exact preds_popped_of_indeg_zero nodes succ hnd [] (List.nodup_nil)
      (by intro x hx; cases hx) v hz u hu hvu
  · intro l₁ u l₂ habs
    exact absurd habs (by simp)

end KahnSort

section DpPhase

variable {α : Type} [DecidableEq α] {W : Type} [LinearOrder W] [Add W] [One W]

omit [DecidableEq α] [Add W] [One W] in
theorem le_foldl_max {f : α → W} : ∀ (l : List α) (a : W),
    a ≤ l.foldl (fun a c => max a (f c)) a := by
  intro l
  induction l with
  | nil => intro a; simp
  | cons c rest ih =>
    intro a
    rw [List.foldl_cons]
    exact le_trans (le_max_left a (f c)) (ih (max a (f c)))

omit [DecidableEq α] [Add W] [One W] in
theorem foldl_max_ge {f : α → W} {c : α} : ∀ (l : List α), c ∈ l →
    ∀ a : W, f c ≤ l.foldl (fun a c => max a (f c)) a := by
  intro l
  induction l with
  | nil => intro hc; cases hc
  | cons d rest ih =>
    intro hc a
    rw [List.foldl_cons]
    rcases List.mem_cons.mp hc with rfl | hc'
    · exact le_trans (le_max_right a (f c)) (le_foldl_max rest _)
    · exact ih hc' _

omit [DecidableEq α] [Add W] [One W] in
theorem foldl_max_congr {f g : α → W} : ∀ (l : List α),
    (∀ c ∈ l, f c = g c) → ∀ a : W,
    l.foldl (fun a c => max a (f c)) a = l.foldl (fun a c => max a (g c)) a := by
  intro l
  induction l with
  | nil => intro _ a; rfl
  | cons c rest ih =>
    intro h a
    rw [List.foldl_cons, List.foldl_cons, h c (List.mem_cons_self c rest)]
    exact ih (fun d hd => h d (List.mem_cons_of_mem c hd)) _

/-- The inner loop of the DP at node `u` only rewrites `cp[u]`, folding a
running maximum over the successors' current values. -/
theorem dpInner_spec (weight : α → Option W) (u : α) (l : List α)
    (hu : u ∉ l) : ∀ (cp : α → W),
    l.foldl
      (fun cp2 c => fun x =>
        if x = u then max (cp2 u) ((weight u).getD 1 + cp2 c) else cp2 x)
      cp
    = fun x =>
        if x = u then
          l.foldl (fun a c => max a ((weight u).getD 1 + cp c)) (cp u)
        else cp x := by
  induction l with
  | nil =>
    intro cp
    funext x
    by_cases hx : x = u <;> simp [hx]
  | cons c rest ih =>
    intro cp
    have huc : u ≠ c := fun h => hu (h ▸ List.mem_cons_self c rest)
    have hur : u ∉ rest := fun h => hu (List.mem_cons_of_mem c h)
    rw [List.foldl_cons, ih hur]
    funext x
    by_cases hx : x = u
    · subst hx
      simp only [if_pos rfl, List.foldl_cons]
      have hcp : ∀ d ∈ rest,
          (weight x).getD 1
              + (fun y => if y = x then max (cp x) ((weight x).getD 1 + cp c)
                  else cp y) d
            = (weight x).getD 1 + cp d := by
        intro d hd
        have hdx : d ≠ x := fun h => hur (h ▸ hd)
        simp [hdx]
      rw [foldl_max_congr rest hcp]
      simp
    · simp [hx]

/-- The reverse-topological DP: processing the reversed order left to
right, every processed node's value dominates its weight and, for every
successor, its weight plus the successor's (already final) value. -/
theorem dpFold_invariant (nodes : List α) (succ : α → List α)
    (weight : α → Option W)
    (hcl : ∀ n ∈ nodes, ∀ v ∈ succ n, v ∈ nodes)
    (topo : List α) (h1 : topo.Nodup) (h2 : ∀ x ∈ topo, x ∈ nodes)
    (h3 : ∀ x ∈ nodes, x ∈ topo)
    (h4 : ∀ l₁ u l₂, topo = l₁ ++ u :: l₂ → ∀ v ∈ succ u, v ∈ topo → v ∈ l₂) :
    ∀ (rem P : List α) (cp : α → W),
    topo.reverse = P ++ rem →
    (∀ m, m ∉ P → cp m = (weight m).getD 1) →
    (∀ m ∈ P, (weight m).getD 1 ≤ cp m ∧
      ∀ c' ∈ succ m, (weight m).getD 1 + cp c' ≤ cp m) →
    ∀ m ∈ P ++ rem,
      (weight m).getD 1
          ≤ (rem.foldl
              (fun cp n =>
                (succ n).foldl
                  (fun cp2 c => fun x =>
                    if x = n then max (cp2 n) ((weight n).getD 1 + cp2 c)
                    else cp2 x)
                  cp)
              cp) m ∧
      ∀ c' ∈ succ m,
        (weight m).getD 1
            + (rem.foldl
                (fun cp n =>
                  (succ n).foldl
                    (fun cp2 c => fun x =>
                      if x = n then max (cp2 n) ((weight n).getD 1 + cp2 c)
                      else cp2 x)
                    cp)
                cp) c'
          ≤ (rem.foldl
              (fun cp n =>
                (succ n).foldl
                  (fun cp2 c => fun x =>
                    if x = n then max (cp2 n) ((weight n).getD 1 + cp2 c)
                    else cp2 x)
                  cp)
              cp) m := by
  intro rem
  induction rem with
  | nil =>
    intro P cp hsplit hd1 hd2 m hm
    rw [List.foldl_nil]
    rw [List.append_nil] at hm
    exact hd2 m hm
  | cons u rem' ih =>
    intro P cp hsplit hd1 hd2 m hm
    have hrevnd : (P ++ u :: rem').Nodup := by
      rw [← hsplit]
      exact List.nodup_reverse.mpr h1
    have hunotP : u ∉ P := fun hu =>
      List.disjoint_of_nodup_append hrevnd hu (List.mem_cons_self u rem')
    have htopoeq : topo = rem'.reverse ++ u :: P.reverse := by
      have h := congrArg List.reverse hsplit
      rw [List.reverse_reverse] at h
      rw [h, List.reverse_append, List.reverse_cons, List.append_assoc,
        List.singleton_append]
    have huin : u ∈ topo := by
      rw [htopoeq]
      exact List.mem_append_right _ (List.mem_cons_self u P.reverse)
    have hunodes : u ∈ nodes := h2 u huin
    have husucc : u ∉ succ u := by
      intro hus
      have := h4 rem'.reverse u P.reverse htopoeq u hus huin
      rw [List.mem_reverse] at this
      exact hunotP this
    have hsuccP : ∀ v ∈ succ u, v ∈ P := by
      intro v hv
      have hvt : v ∈ topo := h3 v (hcl u hunodes v hv)
      have := h4 rem'.reverse u P.reverse htopoeq v hv hvt
      rwa [List.mem_reverse] at this
    have hnoback : ∀ m' ∈ P, u ∉ succ m' := by
      intro m' hm' hum'
      have hm'rev : m' ∈ P.reverse := List.mem_reverse.mpr hm'
      obtain ⟨pa, pb, hpr⟩ := List.append_of_mem hm'rev
      have hsplitm : topo = (rem'.reverse ++ u :: pa) ++ m' :: pb := by
        rw [htopoeq, hpr]
        simp
      have hub := h4 _ m' pb hsplitm u hum' huin
      have : u ∈ P.reverse := by
        rw [hpr]
        exact List.mem_append_right _ (List.mem_cons_of_mem m' hub)
      rw [List.mem_reverse] at this
      exact hunotP this
    rw [List.foldl_cons, dpInner_spec weight u (succ u) husucc cp]
    set M : W := (succ u).foldl
      (fun a c => max a ((weight u).getD 1 + cp c)) (cp u) with hM
    set cp' : α → W := fun x => if x = u then M else cp x with hcp'
    have hd1' : ∀ m', m' ∉ P ++ [u] → cp' m' = (weight m').getD 1 := by
      intro m' hm'
      have hne : m' ≠ u := by
        intro h
        exact hm' (h ▸ List.mem_append_right _ (List.mem_singleton.mpr rfl))
      have hnp : m' ∉ P := fun h => hm' (List.mem_append_left _ h)
      have : cp' m' = cp m' := if_neg hne
      rw [this]
      exact hd1 m' hnp
    have hd2' : ∀ m' ∈ P ++ [u], (weight m').getD 1 ≤ cp' m' ∧
        ∀ c' ∈ succ m', (weight m').getD 1 + cp' c' ≤ cp' m' := by
      intro m' hm'
      rcases List.mem_append.mp hm' with hmp | hmu
      · have hne : m' ≠ u := fun h => hunotP (h ▸ hmp)
        have hcpm : cp' m' = cp m' := if_neg hne
        refine ⟨by rw [hcpm]; exact (hd2 m' hmp).1, ?_⟩
        intro c' hc'
        have hcne : c' ≠ u := fun h => hnoback m' hmp (h ▸ hc')
        have hcpc : cp' c' = cp c' := if_neg hcne
        rw [hcpm, hcpc]
        exact (hd2 m' hmp).2 c' hc'
      · rw [List.mem_singleton] at hmu
        subst hmu
        have hcpu : cp' m' = M := if_pos rfl
        have hcpinit : cp m' = (weight m').getD 1 := hd1 m' hunotP
        refine ⟨?_, ?_⟩
        · rw [hcpu, ← hcpinit]
          exact le_foldl_max (succ m') (cp m')
        · intro c' hc'
          have hcne : c' ≠ m' := fun h => husucc (h ▸ hc')
          have hcpc : cp' c' = cp c' := if_neg hcne
          rw [hcpu, hcpc]
          exact @foldl_max_ge α W _
            (fun c => (weight m').getD 1 + cp c) c' (succ m') hc' (cp m')
    have hsplit' : topo.reverse = (P ++ [u]) ++ rem' := by
      rw [hsplit]
      simp
    have hmem : m ∈ (P ++ [u]) ++ rem' := by
      rcases List.mem_append.mp hm with h | h
      · exact List.mem_append_left _ (List.mem_append_left _ h)
      · rcases List.mem_cons.mp h with rfl | h
        · exact List.mem_append_left _
            (List.mem_append_right _ (List.mem_singleton.mpr rfl))
        · exact List.mem_append_right _ h
    exact ih (P ++ [u]) cp' hsplit' hd1' hd2' m hmem

/-- C6: for every acyclic provider→consumer DAG (given as a duplicate-free
key list with duplicate-free successor sets contained in the keys) and
every weight assignment, the critical-path map returned by
`compute_critical_path` satisfies `cp(c) ≥ w(c)` for every node `c` — with
`w` the dictionary lookup defaulting to `1` — and `cp(c) ≥ w(c) + cp(c')`
for every edge `c → c'`. -/
theorem claim_C6_critical_path_bounds (nodes : List α) (succ : α → List α)
    (weight : α → Option W)
    (hnd : nodes.Nodup) (hcl : ∀ n ∈ nodes, ∀ v ∈ succ n, v ∈ nodes)
    (hsnd : ∀ n, (succ n).Nodup) (hacy : AcyclicDag nodes succ) :
    ∀ c ∈ nodes,
      (weight c).getD 1 ≤ compute_critical_path nodes succ weight c ∧
      ∀ c' ∈ succ c,
        (weight c).getD 1 + compute_critical_path nodes succ weight c'
          ≤ compute_critical_path nodes succ weight c := by
  obtain ⟨t1, t2, t3, t4⟩ := kahnTopo_spec nodes succ hnd hcl hsnd hacy
  intro c hc
  rw [compute_critical_path, dpPass]
  exact dpFold_invariant nodes succ weight hcl (kahnTopo nodes succ)
    t1 t2 t3 t4 (kahnTopo nodes succ).reverse [] (fun n => (weight n).getD 1)
    (by rw [List.nil_append]) (fun m _ => rfl) (by intro m hm; cases hm)
    c (by
      rw [List.nil_append, List.mem_reverse]
      exact t3 c hc)

/-- Witness for C6 on the two-node DAG `0 → 1` with weights `5` and `7`. -/
theorem claim_C6_witness :
    ((5 : Int) ≤ compute_critical_path [0, 1]
        (fun n : Nat => if n = 0 then [1] else [])
        (fun n => some (if n = 0 then (5 : Int) else 7)) 0)
    ∧ ((5 : Int) + compute_critical_path [0, 1]
        (fun n : Nat => if n = 0 then [1] else [])
        (fun n => some (if n = 0 then (5 : Int) else 7)) 1
      ≤ compute_critical_path [0, 1]
        (fun n : Nat => if n = 0 then [1] else [])
        (fun n => some (if n = 0 then (5 : Int) else 7)) 0) := by
  have h := claim_C6_critical_path_bounds [0, 1]
    (fun n : Nat => if n = 0 then [1] else [])
    (fun n => some (if n = 0 then (5 : Int) else 7))
    (by decide) (by decide)
    (by
      intro n
      by_cases hn : n = 0 <;> simp [hn])
    ⟨[0, 1], by decide, by decide, by decide⟩
  have h0 := h 0 (by decide)
  exact ⟨h0.1, h0.2 1 (by decide)⟩

end DpPhase

/-! ## The components partition the key set (C8)

Tarjan invariants: the nodes placed so far (recorded components plus the
stack) are pairwise distinct indexed keys, every recorded component is
non-empty, and the stack below a call's entry point is never touched.
Together with the singleton components added afterwards this makes
`all_comps` a partition of the graph's keys. -/

section Partition

variable {ν : Type} [DecidableEq ν]

/-- The Tarjan invariant: placed nodes (components ++ stack) are pairwise
distinct indexed keys; recorded components are non-empty. -/
def TjInv (g : Graph ν) (st : Tj ν) : Prop :=
  (st.sccs.flatten ++ st.stack).Nodup ∧
  (∀ x ∈ st.sccs.flatten ++ st.stack,
    x ∈ g.keys ∧ (st.indices x).isSome = true) ∧
  (∀ comp ∈ st.sccs, comp ≠ [])

theorem popUntil_of_not_mem (v : ν) :
    ∀ (t s : List ν), v ∉ t → popUntil v (t ++ v :: s) = (t ++ [v], s) := by
  intro t
  induction t with
  | nil =>
    intro s _
    rw [List.nil_append, popUntil, if_pos rfl]
    rfl
  | cons w t' ih =>
    intro s hv
    have hwv : w ≠ v := fun h => hv (h ▸ List.mem_cons_self w t')
    have hvt' : v ∉ t' := fun h => hv (List.mem_cons_of_mem w h)
    rw [List.cons_append, popUntil, if_neg (by exact fun h => hwv h)]
    rw [ih s hvt']
    rfl

theorem tjPush_inv (g : Graph ν) (v : ν) (st : Tj ν) (hv : v ∈ g.keys)
    (hvnone : st.indices v = none) (hinv : TjInv g st) :
    TjInv g (tjPush v st) := by
  obtain ⟨j1, j2, j3⟩ := hinv
  have hvfresh : v ∉ st.sccs.flatten ++ st.stack := by
    intro hmem
    have h2 := (j2 v hmem).2
    rw [hvnone] at h2
    simp at h2
  refine ⟨?_, ?_, j3⟩
  · show (st.sccs.flatten ++ v :: st.stack).Nodup
    rw [List.nodup_middle]
    exact List.nodup_cons.mpr ⟨hvfresh, j1⟩
  · intro x hx
    show x ∈ g.keys ∧ (if x = v then some st.idx else st.indices x).isSome = true
    by_cases hxv : x = v
    · subst hxv
      exact ⟨hv, by rw [if_pos rfl]; rfl⟩
    · have hxold : x ∈ st.sccs.flatten ++ st.stack := by
        have : st.sccs.flatten ++ x :: ([] : List ν) = _ := rfl
        rcases List.mem_append.mp hx with h | h
        · exact List.mem_append_left _ h
        · rcases List.mem_cons.mp h with h | h
          · exact absurd h hxv
          · exact List.mem_append_right _ h
      exact ⟨(j2 x hxold).1, by rw [if_neg hxv]; exact (j2 x hxold).2⟩

/-- `strongconnect` (called on an unindexed key) preserves the Tarjan
invariant, only extends the stack above its entry point, and never
unindexes a node. -/
theorem strongconnect_inv (g : Graph ν)
    (hcl : ∀ n ∈ g.keys, ∀ v ∈ g.succ n, v ∈ g.keys) :
    ∀ (fuel : Nat) (v : ν) (st : Tj ν),
    v ∈ g.keys → st.indices v = none → TjInv g st →
    TjInv g (strongconnect g fuel v st)
    ∧ (∃ t, (strongconnect g fuel v st).stack = t ++ st.stack)
    ∧ (∀ x, (st.indices x).isSome = true →
        ((strongconnect g fuel v st).indices x).isSome = true) := by
  intro fuel
  induction fuel with
  | zero =>
    intro v st _ _ hinv
    rw [strongconnect]
    exact ⟨hinv, ⟨[], rfl⟩, fun x h => h⟩
  | succ fuel ih =>
    intro v st hv hvnone hinv
    rw [strongconnect]
    have hstep : ∀ (s : Tj ν) (w : ν), w ∈ g.keys → TjInv g s →
        TjInv g ((fun (s : Tj ν) w =>
          match s.indices w with
          | none =>
            let s1 := strongconnect g fuel w s
            { s1 with lowlink := fun x =>
                if x = v then min (s1.lowlink v) (s1.lowlink w)
                else s1.lowlink x }
          | some iw =>
            if w ∈ s.stack then
              { s with lowlink := fun x =>
                  if x = v then min (s.lowlink v) iw else s.lowlink x }
            else s) s w)
        ∧ (∃ t, ((fun (s : Tj ν) w =>
          match s.indices w with
          | none =>
            let s1 := strongconnect g fuel w s
            { s1 with lowlink := fun x =>
                if x = v then min (s1.lowlink v) (s1.lowlink w)
                else s1.lowlink x }
          | some iw =>
            if w ∈ s.stack then
              { s with lowlink := fun x =>
                  if x = v then min (s.lowlink v) iw else s.lowlink x }
            else s) s w).stack = t ++ s.stack)
        ∧ (∀ x, (s.indices x).isSome = true →
            (((fun (s : Tj ν) w =>
          match s.indices w with
          | none =>
            let s1 := strongconnect g fuel w s
            { s1 with lowlink := fun x =>
                if x = v then min (s1.lowlink v) (s1.lowlink w)
                else s1.lowlink x }
          | some iw =>
            if w ∈ s.stack then
              { s with lowlink := fun x =>
                  if x = v then min (s.lowlink v) iw else s.lowlink x }
            else s) s w).indices x).isSome = true) := by
      intro s w hw hinvs
      cases hiw : s.indices w with
      | none =>
        have h := ih w s hw hiw hinvs
        simp only [hiw]
        exact h
      | some iw =>
        simp only [hiw]
        by_cases hws : w ∈ s.stack
        · rw [if_pos hws]
          exact ⟨hinvs, ⟨[], rfl⟩, fun x h => h⟩
        · rw [if_neg hws]
          exact ⟨hinvs, ⟨[], rfl⟩, fun x h => h⟩
    have hfold : ∀ (ws : List ν), (∀ w ∈ ws, w ∈ g.keys) →
        ∀ (s : Tj ν), TjInv g s →
        TjInv g (ws.foldl (fun (s : Tj ν) w =>
          match s.indices w with
          | none =>
            let s1 := strongconnect g fuel w s
            { s1 with lowlink := fun x =>
                if x = v then min (s1.lowlink v) (s1.lowlink w)
                else s1.lowlink x }
          | some iw =>
            if w ∈ s.stack then
              { s with lowlink := fun x =>
                  if x = v then min (s.lowlink v) iw else s.lowlink x }
            else s) s)
        ∧ (∃ t, (ws.foldl (fun (s : Tj ν) w =>
          match s.indices w with
          | none =>
            let s1 := strongconnect g fuel w s
            { s1 with lowlink := fun x =>
                if x = v then min (s1.lowlink v) (s1.lowlink w)
                else s1.lowlink x }
          | some iw =>
            if w ∈ s.stack then
              { s with lowlink := fun x =>
                  if x = v then min (s.lowlink v) iw else s.lowlink x }
            else s) s).stack = t ++ s.stack)
        ∧ (∀ x, (s.indices x).isSome = true →
            ((ws.foldl (fun (s : Tj ν) w =>
          match s.indices w with
          | none =>
            let s1 := strongconnect g fuel w s
            { s1 with lowlink := fun x =>
                if x = v then min (s1.lowlink v) (s1.lowlink w)
                else s1.lowlink x }
          | some iw =>
            if w ∈ s.stack then
              { s with lowlink := fun x =>
                  if x = v then min (s.lowlink v) iw else s.lowlink x }
            else s) s).indices x).isSome = true) := by
      intro ws
      induction ws with
      | nil =>
        intro _ s hinvs
        exact ⟨hinvs, ⟨[], rfl⟩, fun x h => h⟩
      | cons w ws' ihw =>
        intro hws s hinvs
        rw [List.foldl_cons]
        have h1 := hstep s w (hws w (List.mem_cons_self w ws')) hinvs
        have h2 := ihw (fun w' hw' => hws w' (List.mem_cons_of_mem w hw')) _ h1.1
        refine ⟨h2.1, ?_, fun x hx => h2.2.2 x (h1.2.2 x hx)⟩
        obtain ⟨t1, ht1⟩ := h1.2.1
        obtain ⟨t2, ht2⟩ := h2.2.1
        exact ⟨t2 ++ t1, by rw [ht2, ht1, List.append_assoc]⟩
    have hpush := tjPush_inv g v st hv hvnone hinv
    have h := hfold (g.succ v) (hcl v hv) (tjPush v st) hpush
    obtain ⟨hinv2, ⟨t, hstk⟩, hmono2⟩ := h
    have hstkv : _ = t ++ v :: st.stack := hstk
    set st2 := (g.succ v).foldl (fun (s : Tj ν) w =>
          match s.indices w with
          | none =>
            let s1 := strongconnect g fuel w s
            { s1 with lowlink := fun x =>
                if x = v then min (s1.lowlink v) (s1.lowlink w)
                else s1.lowlink x }
          | some iw =>
            if w ∈ s.stack then
              { s with lowlink := fun x =>
                  if x = v then min (s.lowlink v) iw else s.lowlink x }
            else s) (tjPush v st) with hst2
    have hmono : ∀ x, (st.indices x).isSome = true →
        (st2.indices x).isSome = true := by
      intro x hx
      refine hmono2 x ?_
      show (if x = v then some st.idx else st.indices x).isSome = true
      by_cases hxv : x = v
      · rw [if_pos hxv]
        rfl
      · rw [if_neg hxv]
        exact hx
    rw [tjRoot]
    by_cases hroot : st2.lowlink v = (st2.indices v).getD 0
    · rw [if_pos hroot]
      obtain ⟨j1, j2, j3⟩ := hinv2
      have hstknd : st2.stack.Nodup := j1.of_append_right
      have hvt : v ∉ t := by
        rw [hstkv] at hstknd
        exact fun hvmem => (List.nodup_cons.mp
          (List.nodup_middle.mp hstknd)).1 (List.mem_append_left _ hvmem)
      have hpop : popUntil v st2.stack = (t ++ [v], st.stack) := by
        rw [hstkv]
        exact popUntil_of_not_mem v t st.stack hvt
      have hplaced : (st2.sccs ++ [t ++ [v]]).flatten ++ st.stack
          = st2.sccs.flatten ++ st2.stack := by
        rw [hstkv, List.flatten_append]
        simp
      refine ⟨⟨?_, ?_, ?_⟩, ⟨[], ?_⟩, ?_⟩
      · show ((st2.sccs ++ [(popUntil v st2.stack).1]).flatten
            ++ (popUntil v st2.stack).2).Nodup
        rw [hpop]
        rw [hplaced]
        exact j1
      · intro x hx
        show x ∈ g.keys ∧ (st2.indices x).isSome = true
        rw [hpop] at hx
        rw [hplaced] at hx
        exact j2 x hx
      · intro comp hcomp
        rw [hpop] at hcomp
        rcases List.mem_append.mp hcomp with h | h
        · exact j3 comp h
        · rw [List.mem_singleton] at h
          subst h
          simp
      · show (popUntil v st2.stack).2 = st.stack
        rw [hpop]
      · intro x hx
        exact hmono x hx
    · rw [if_neg hroot]
      exact ⟨hinv2, ⟨t ++ [v], by rw [hstkv, List.append_assoc,
        List.singleton_append]⟩, hmono⟩

theorem find_sccs_inv (g : Graph ν)
    (hcl : ∀ n ∈ g.keys, ∀ v ∈ g.succ n, v ∈ g.keys) :
    ∃ st : Tj ν, find_sccs g = st.sccs ∧ TjInv g st := by
  rw [find_sccs]
  suffices h : ∀ (ks : List ν), (∀ v ∈ ks, v ∈ g.keys) → ∀ st, TjInv g st →
      TjInv g (ks.foldl
        (fun st v =>
          if (st.indices v).isNone then
            strongconnect g (g.keys.length + 1) v st
          else st)
        st) by
    refine ⟨_, rfl, h g.keys (fun v hv => hv) tarjanInit ?_⟩
    refine ⟨?_, ?_, ?_⟩
    · show (([] : List (List ν)).flatten ++ ([] : List ν)).Nodup
      simp
    · intro x hx
      rw [show (tarjanInit : Tj ν).sccs = [] from rfl,
        show (tarjanInit : Tj ν).stack = [] from rfl] at hx
      simp at hx
    · intro comp hcomp
      rw [show (tarjanInit : Tj ν).sccs = [] from rfl] at hcomp
      cases hcomp
  intro ks
  induction ks with
  | nil =>
    intro _ st hinv
    exact hinv
  | cons v ks' ih =>
    intro hks st hinv
    rw [List.foldl_cons]
    refine ih (fun w hw => hks w (List.mem_cons_of_mem v hw)) _ ?_
    by_cases hvi : (st.indices v).isNone
    · rw [if_pos hvi]
      exact (strongconnect_inv g hcl (g.keys.length + 1) v st
        (hks v (List.mem_cons_self v ks'))
        (Option.isNone_iff_eq_none.mp hvi) hinv).1
    · rw [if_neg hvi]
      exact hinv

theorem find_sccs_flatten_nodup (g : Graph ν)
    (hcl : ∀ n ∈ g.keys, ∀ v ∈ g.succ n, v ∈ g.keys) :
    (find_sccs g).flatten.Nodup := by
  obtain ⟨st, heq, hinv⟩ := find_sccs_inv g hcl
  rw [heq]
  exact hinv.1.of_append_left

theorem find_sccs_facts (g : Graph ν)
    (hcl : ∀ n ∈ g.keys, ∀ v ∈ g.succ n, v ∈ g.keys) :
    ∀ comp ∈ find_sccs g, comp ≠ [] ∧ ∀ x ∈ comp, x ∈ g.keys := by
  obtain ⟨st, heq, hinv⟩ := find_sccs_inv g hcl
  rw [heq]
  intro comp hcomp
  refine ⟨hinv.2.2 comp hcomp, ?_⟩
  intro x hx
  exact (hinv.2.1 x (List.mem_append_left _
    (List.mem_flatten.mpr ⟨comp, hcomp, hx⟩))).1

omit [DecidableEq ν] in
theorem comp_unique_of_flatten_nodup {S : List (List ν)}
    (h : S.flatten.Nodup) {c₁ c₂ : List ν} (h₁ : c₁ ∈ S) (h₂ : c₂ ∈ S)
    {f : ν} (hf₁ : f ∈ c₁) (hf₂ : f ∈ c₂) : c₁ = c₂ := by
  obtain ⟨l₁, l₂, rfl⟩ := List.append_of_mem h₁
  rw [List.flatten_append, List.flatten_cons] at h
  rcases List.mem_append.mp h₂ with hc | hc
  · exfalso
    have hdisj := List.disjoint_of_nodup_append h
    exact hdisj (List.mem_flatten.mpr ⟨c₂, hc, hf₂⟩)
      (List.mem_append_left _ hf₁)
  · rcases List.mem_cons.mp hc with rfl | hc
    · rfl
    · exfalso
      have hnd2 := h.of_append_right
      have hdisj := List.disjoint_of_nodup_append hnd2
      exact hdisj hf₁ (List.mem_flatten.mpr ⟨c₂, hc, hf₂⟩)

/-- C8: the components produced by SCC computation plus singleton creation
partition the key set: every file belongs to exactly one component of
`all_comps`, and every component is a non-empty subset of the keys. -/
theorem claim_C8_components_partition (g : Graph ν)
    (hcl : ∀ n ∈ g.keys, ∀ v ∈ g.succ n, v ∈ g.keys) :
    (∀ f ∈ g.keys, ∃ c, c ∈ allCompsList g ∧ f ∈ c ∧
        ∀ c', c' ∈ allCompsList g → f ∈ c' → c' = c) ∧
    (∀ c ∈ allCompsList g, c.Nonempty ∧ ∀ x ∈ c, x ∈ g.keys) := by
  have hnd := find_sccs_flatten_nodup g hcl
  have hfacts := find_sccs_facts g hcl
  constructor
  · intro f hf
    cases hfind : (find_sccs g).find? (fun c => decide (f ∈ c)) with
    | some comp =>
      have hcompS : comp ∈ find_sccs g := List.mem_of_find?_eq_some hfind
      have hp := @List.find?_some (List ν) (fun c => decide (f ∈ c)) comp
        (find_sccs g) hfind
      have hfcomp : f ∈ comp := of_decide_eq_true hp
      refine ⟨comp.toFinset, ?_, List.mem_toFinset.mpr hfcomp, ?_⟩
      · rw [allCompsList, List.mem_dedup]
        exact List.mem_append_left _
          (List.mem_map.mpr ⟨comp, hcompS, rfl⟩)
      · intro c' hc' hfc'
        rw [allCompsList, List.mem_dedup] at hc'
        rcases List.mem_append.mp hc' with h | h
        · obtain ⟨comp', hcomp', rfl⟩ := List.mem_map.mp h
          have := comp_unique_of_flatten_nodup hnd hcomp' hcompS
            (List.mem_toFinset.mp hfc') hfcomp
          rw [this]
        · obtain ⟨x, hx, rfl⟩ := List.mem_map.mp h
          have hfx : f = x := Finset.mem_singleton.mp hfc'
          subst hfx
          rw [List.mem_filter] at hx
          rw [hfind] at hx
          exact absurd hx.2 (by simp)
    | none =>
      have hnone : ∀ comp ∈ find_sccs g, f ∉ comp := by
        intro comp hcomp hfc
        have := List.find?_eq_none.mp hfind comp hcomp
        exact this (decide_eq_true hfc)
      refine ⟨{f}, ?_, Finset.mem_singleton_self f, ?_⟩
      · rw [allCompsList, List.mem_dedup]
        refine List.mem_append_right _ (List.mem_map.mpr ⟨f, ?_, rfl⟩)
        rw [List.mem_filter]
        exact ⟨hf, by rw [hfind]; rfl⟩
      · intro c' hc' hfc'
        rw [allCompsList, List.mem_dedup] at hc'
        rcases List.mem_append.mp hc' with h | h
        · obtain ⟨comp', hcomp', rfl⟩ := List.mem_map.mp h
          exact absurd (List.mem_toFinset.mp hfc') (hnone comp' hcomp')
        · obtain ⟨x, _, rfl⟩ := List.mem_map.mp h
          have hfx : f = x := Finset.mem_singleton.mp hfc'
          rw [hfx]
  · intro c hc
    rw [allCompsList, List.mem_dedup] at hc
    rcases List.mem_append.mp hc with h | h
    · obtain ⟨comp, hcomp, rfl⟩ := List.mem_map.mp h
      obtain ⟨hne, hkeys⟩ := hfacts comp hcomp
      obtain ⟨x, hx⟩ := List.exists_mem_of_ne_nil comp hne
      exact ⟨⟨x, List.mem_toFinset.mpr hx⟩,
        fun y hy => hkeys y (List.mem_toFinset.mp hy)⟩
    · obtain ⟨x, hx, rfl⟩ := List.mem_map.mp h
      rw [List.mem_filter] at hx
      exact ⟨⟨x, Finset.mem_singleton_self x⟩,
        fun y hy => (Finset.mem_singleton.mp hy) ▸ hx.1⟩

/-- Witness for C8 on the linear chain: file `0` lies in exactly one
component. -/
theorem claim_C8_witness :
    ∃ c, c ∈ allCompsList chainG ∧ 0 ∈ c ∧
      ∀ c', c' ∈ allCompsList chainG → 0 ∈ c' → c' = c :=
  (claim_C8_components_partition chainG (by decide)).1 0 (by decide)

end Partition

/-! ### C9: canonical-JSON blob storage round trip

`store_ast_results` (storage.py) serializes each metadata dict with
`json.dumps(obj, sort_keys=True, separators=(",", ":"))`, hashes the bytes
with sha256, and `write_blob` gzips them into
`objects_dir/digest[:2]/digest[2:].json.gz`, skipping the write when the
path already exists.  `load_blob` (retriever.py) opens that path, gunzips,
and `json.load`s the text back.

Embedding choices: JSON values are the inductive `Json` (numbers are the
integers the indexer produces, dicts are association lists); a Python dict
is represented canonically by an association list whose keys are strictly
sorted in code-point order (`canonical`), which makes Lean equality
coincide with Python dict equality.  Bytes are `String`s; gzip compression
and sha256 are abstract function parameters (`comp`/`decomp` with
`decomp (comp s) = s`, and `hash`).  The filesystem under `objects_dir` is
an association list from `(subdir, filename)` pairs to file contents.
`json.load` is the fuel-driven recursive-descent `parse` below. -/

section Storage

/-- JSON values as produced by the AST indexer: null, booleans, integers,
strings, arrays, and objects (association lists). -/
inductive Json where
  | null : Json
  | bool (b : Bool) : Json
  | num (n : Int) : Json
  | str (s : String) : Json
  | arr (a : List Json) : Json
  | obj (o : List (String × Json)) : Json

/-- Code-point lexicographic strict comparison of character lists, the
order Python uses on `str` (and hence the `sort_keys=True` key order). -/
def charsLt : List Char → List Char → Bool
  | [], [] => false
  | [], _ :: _ => true
  | _ :: _, [] => false
  | a :: as, b :: bs =>
    if a.toNat < b.toNat then true
    else if b.toNat < a.toNat then false
    else charsLt as bs

/-- Python `<` on strings. -/
def strLtB (a b : String) : Bool := charsLt a.data b.data

/-- Python `<=` on strings (total order, so `a <= b` iff `not (b < a)`). -/
def strLeB (a b : String) : Bool := !(strLtB b a)

/-- The decimal digit character for `n < 10`. -/
def digitChar (n : Nat) : Char := Char.ofNat (48 + n)

/-- Fuel-driven most-significant-first decimal rendering of a natural
number, accumulator style (`int.__repr__`). -/
def natDigitsAux : Nat → Nat → List Char → List Char
  | 0, _, acc => acc
  | fuel + 1, n, acc =>
    if n < 10 then digitChar n :: acc
    else natDigitsAux fuel (n / 10) (digitChar (n % 10) :: acc)

/-- Decimal rendering of a natural number. -/
def natChars (n : Nat) : List Char := natDigitsAux (n + 1) n []

/-- Decimal rendering of an integer (`repr` of a Python int). -/
def intChars : Int → List Char
  | .ofNat n => natChars n
  | .negSucc m => '-' :: natChars (m + 1)

/-- Lowercase hexadecimal digit character for `n < 16`. -/
def hexDigitChar (n : Nat) : Char :=
  if n < 10 then Char.ofNat (48 + n) else Char.ofNat (87 + n)

/-- Four lowercase hex digits, as in the `\uXXXX` escapes emitted by
`json.dumps`. -/
def hex4 (n : Nat) : List Char :=
  [hexDigitChar (n / 4096 % 16), hexDigitChar (n / 256 % 16),
   hexDigitChar (n / 16 % 16), hexDigitChar (n % 16)]

/-- The `ensure_ascii=True` escaping of one character
(`json.encoder.py_encode_basestring_ascii`): short escapes for quote,
backslash and the common control characters, `\uXXXX` for other
characters outside `0x20`-`0x7e`, surrogate pairs above `0xffff`. -/
def escapeChar (c : Char) : List Char :=
  if c = '"' then ['\\', '"']
  else if c = '\\' then ['\\', '\\']
  else if c = Char.ofNat 8 then ['\\', 'b']
  else if c = Char.ofNat 9 then ['\\', 't']
  else if c = Char.ofNat 10 then ['\\', 'n']
  else if c = Char.ofNat 12 then ['\\', 'f']
  else if c = Char.ofNat 13 then ['\\', 'r']
  else if c.toNat < 32 ∨ 127 ≤ c.toNat then
    if c.toNat < 65536 then '\\' :: 'u' :: hex4 c.toNat
    else ('\\' :: 'u' :: hex4 (55296 + (c.toNat - 65536) / 1024)) ++
         ('\\' :: 'u' :: hex4 (56320 + (c.toNat - 65536) % 1024))
  else [c]

/-- A JSON string literal: quote, escaped characters, quote. -/
def escapeString (s : String) : List Char :=
  '"' :: s.data.flatMap escapeChar ++ ['"']

/-- Render one already-serialized key/value pair with the `":"` item
separator from `separators=(",", ":")`. -/
def renderPair (p : String × List Char) : List Char :=
  escapeString p.1 ++ ':' :: p.2

/-- Join pre-rendered items with the `","` separator. -/
def joinComma : List (List Char) → List Char
  | [] => []
  | [x] => x
  | x :: y :: t => x ++ ',' :: joinComma (y :: t)

/-- Serialize an object body: sort the pairs by key (`sort_keys=True`,
comparisons look only at the key) and join the rendered members. -/
def sortedRender (ps : List (String × List Char)) : List Char :=
  joinComma ((List.insertionSort (fun a b => strLeB a.1 b.1 = true) ps).map renderPair)

mutual
/-- `json.dumps(x, sort_keys=True, separators=(",", ":"))`, character
list form. -/
def dumpsChars : Json → List Char
  | .null => "null".data
  | .bool true => "true".data
  | .bool false => "false".data
  | .num n => intChars n
  | .str s => escapeString s
  | .arr a => '[' :: dumpsList a ++ [']']
  | .obj o => '\x7b' :: sortedRender (dumpsPairs o) ++ ['\x7d']
/-- Comma-joined serializations of array elements. -/
def dumpsList : List Json → List Char
  | [] => []
  | [x] => dumpsChars x
  | x :: y :: t => dumpsChars x ++ ',' :: dumpsList (y :: t)
/-- Serialize every value of an object, keeping the keys for sorting. -/
def dumpsPairs : List (String × Json) → List (String × List Char)
  | [] => []
  | (k, v) :: t => (k, dumpsChars v) :: dumpsPairs t
end

/-- Canonical JSON text of a value. -/
def dumps (x : Json) : String := String.mk (dumpsChars x)

/-- JSON whitespace (space, tab, linefeed, carriage return). -/
def isWs (c : Char) : Bool :=
  c.toNat == 32 || c.toNat == 9 || c.toNat == 10 || c.toNat == 13

/-- Drop leading JSON whitespace. -/
def skipWs : List Char → List Char
  | [] => []
  | c :: t => if isWs c then skipWs t else c :: t

/-- ASCII decimal digit test. -/
def isDigitB (c : Char) : Bool := 48 ≤ c.toNat && c.toNat ≤ 57

/-- Consume a maximal run of decimal digits, folding them onto `acc`. -/
def parseNatAux : List Char → Nat → Nat × List Char
  | [], acc => (acc, [])
  | c :: t, acc =>
    if isDigitB c then parseNatAux t (acc * 10 + (c.toNat - 48)) else (acc, c :: t)

/-- Value of one hexadecimal digit character. -/
def hexVal (c : Char) : Option Nat :=
  if 48 ≤ c.toNat ∧ c.toNat ≤ 57 then some (c.toNat - 48)
  else if 97 ≤ c.toNat ∧ c.toNat ≤ 102 then some (c.toNat - 87)
  else if 65 ≤ c.toNat ∧ c.toNat ≤ 70 then some (c.toNat - 55)
  else none

/-- Read the four hex digits of a `\uXXXX` escape. -/
def parseHex4 : List Char → Option (Nat × List Char)
  | a :: b :: c :: d :: t =>
    match hexVal a, hexVal b, hexVal c, hexVal d with
    | some va, some vb, some vc, some vd =>
      some (va * 4096 + vb * 256 + vc * 16 + vd, t)
    | _, _, _, _ => none
  | _ => none

/-- Wrap a parsed string literal as a JSON value. -/
def strCont : Option (String × List Char) → Option (Json × List Char)
  | some (s, r) => some (.str s, r)
  | none => none

/-- Wrap a parsed digit run as a JSON number. -/
def numCont (p : Nat × List Char) : Option (Json × List Char) :=
  some (.num (p.1 : Int), p.2)

/-- Wrap a parsed digit run as a negated JSON number. -/
def negCont (p : Nat × List Char) : Option (Json × List Char) :=
  some (.num (-(p.1 : Int)), p.2)

mutual
/-- Recursive-descent JSON value scanner (`json.scanner.py_make_scanner`
driven by `json.load`), with fuel standing in for Python's unbounded
recursion.  Numbers are scanned as the integers the store ever contains;
string literals, arrays and objects follow the Python scanner: skip
whitespace, dispatch on the first character, and delegate to the literal,
array or object readers. -/
def parseValue : Nat → List Char → Option (Json × List Char)
  | 0, _ => none
  | fuel + 1, cs =>
    match skipWs cs with
    | [] => none
    | c :: t =>
      if isDigitB c then numCont (parseNatAux (c :: t) 0)
      else if c = '-' then
        match t with
        | d :: t2 =>
          if isDigitB d then negCont (parseNatAux (d :: t2) 0) else none
        | [] => none
      else
        match c :: t with
        | 'n' :: 'u' :: 'l' :: 'l' :: r => some (.null, r)
        | 't' :: 'r' :: 'u' :: 'e' :: r => some (.bool true, r)
        | 'f' :: 'a' :: 'l' :: 's' :: 'e' :: r => some (.bool false, r)
        | '"' :: r => strCont (parseStringBody fuel r [])
        | '[' :: r =>
          match skipWs r with
          | [] => none
          | e :: t2 =>
            if e = ']' then some (.arr [], t2) else parseElems fuel (e :: t2) []
        | '\x7b' :: r =>
          match skipWs r with
          | [] => none
          | e :: t2 =>
            if e = '\x7d' then some (.obj [], t2) else parseMembers fuel (e :: t2) []
        | _ => none
/-- `json.decoder.JSONArray`: parse a value, then continue after `,` or
close at `]`. -/
def parseElems : Nat → List Char → List Json → Option (Json × List Char)
  | 0, _, _ => none
  | fuel + 1, cs, acc =>
    match parseValue fuel cs with
    | none => none
    | some (v, rest) =>
      match skipWs rest with
      | ',' :: t => parseElems fuel t (acc ++ [v])
      | ']' :: t => some (.arr (acc ++ [v]), t)
      | _ => none
/-- `json.decoder.JSONObject`: parse a quoted key, `:`, a value, then
continue after `,` or close at the closing brace. -/
def parseMembers : Nat → List Char → List (String × Json) → Option (Json × List Char)
  | 0, _, _ => none
  | fuel + 1, cs, acc =>
    match skipWs cs with
    | '"' :: t =>
      match parseStringBody fuel t [] with
      | none => none
      | some (k, rest) =>
        match skipWs rest with
        | ':' :: t2 =>
          match parseValue fuel t2 with
          | none => none
          | some (v, rest2) =>
            match skipWs rest2 with
            | ',' :: t3 => parseMembers fuel t3 (acc ++ [(k, v)])
            | '\x7d' :: t3 => some (.obj (acc ++ [(k, v)]), t3)
            | _ => none
        | _ => none
    | _ => none
/-- `json.decoder.py_scanstring` (strict mode): read characters up to the
closing quote, decoding backslash escapes, `\uXXXX` sequences and
surrogate pairs, rejecting raw control characters.  Lone surrogates are
not representable as Lean characters, so they are rejected rather than
kept verbatim. -/
def parseStringBody : Nat → List Char → List Char → Option (String × List Char)
  | 0, _, _ => none
  | fuel + 1, cs, acc =>
    match cs with
    | [] => none
    | c :: t =>
      if c = '"' then some (String.mk acc, t)
      else if c = '\\' then
        match t with
        | [] => none
        | e :: t2 =>
          match e with
          | '"' => parseStringBody fuel t2 (acc ++ ['"'])
          | '\\' => parseStringBody fuel t2 (acc ++ ['\\'])
          | '/' => parseStringBody fuel t2 (acc ++ ['/'])
          | 'b' => parseStringBody fuel t2 (acc ++ [Char.ofNat 8])
          | 'f' => parseStringBody fuel t2 (acc ++ [Char.ofNat 12])
          | 'n' => parseStringBody fuel t2 (acc ++ [Char.ofNat 10])
          | 'r' => parseStringBody fuel t2 (acc ++ [Char.ofNat 13])
          | 't' => parseStringBody fuel t2 (acc ++ [Char.ofNat 9])
          | 'u' =>
            match parseHex4 t2 with
            | none => none
            | some (n, t3) =>
              if 55296 ≤ n ∧ n ≤ 56319 then
                match t3 with
                | '\\' :: 'u' :: t4 =>
                  match parseHex4 t4 with
                  | none => none
                  | some (m, t5) =>
                    if 56320 ≤ m ∧ m ≤ 57343 then
                      parseStringBody fuel t5
                        (acc ++ [Char.ofNat (65536 + (n - 55296) * 1024 + (m - 56320))])
                    else none
                | _ => none
              else if 56320 ≤ n ∧ n ≤ 57343 then none
              else parseStringBody fuel t3 (acc ++ [Char.ofNat n])
          | _ => none
      else if c.toNat < 32 then none
      else parseStringBody fuel t (acc ++ [c])
end

/-- `json.load`: parse one value and require only whitespace to remain.
The fuel `length + 1` dominates the recursion depth of any parse. -/
def parse (s : String) : Option Json :=
  match parseValue (s.data.length + 1) s.data with
  | some (j, rest) => if skipWs rest = [] then some j else none
  | none => none

/-- Keys of an association list are strictly sorted in Python string
order: the canonical-form invariant under which an association list
represents a Python dict with Lean equality matching dict equality. -/
def keysSorted : List (String × Json) → Bool
  | [] => true
  | [_] => true
  | a :: b :: t => strLtB a.1 b.1 && keysSorted (b :: t)

mutual
/-- A value is in canonical form when every object in it has strictly
sorted keys. -/
def canonical : Json → Bool
  | .null => true
  | .bool _ => true
  | .num _ => true
  | .str _ => true
  | .arr a => canonicalList a
  | .obj o => keysSorted o && canonicalPairs o
/-- All array elements canonical. -/
def canonicalList : List Json → Bool
  | [] => true
  | x :: t => canonical x && canonicalList t
/-- All object values canonical. -/
def canonicalPairs : List (String × Json) → Bool
  | [] => true
  | (_, v) :: t => canonical v && canonicalPairs t
end

/-- One serialized object member, unsorted form. -/
def memberChars (p : String × Json) : List Char :=
  escapeString p.1 ++ ':' :: dumpsChars p.2

/-- Serialized object body in the order given (agrees with `sortedRender`
of `dumpsPairs` when the keys are already sorted). -/
def membersChars : List (String × Json) → List Char
  | [] => []
  | [p] => memberChars p
  | p :: q :: t => memberChars p ++ ',' :: membersChars (q :: t)

mutual
/-- Fuel sufficient for `parseValue` to scan the serialization of a
value. -/
def jCost : Json → Nat
  | .null => 1
  | .bool _ => 1
  | .num _ => 1
  | .str s => 2 + s.data.length
  | .arr a => 1 + jCostList a
  | .obj o => 1 + jCostPairs o
/-- Fuel sufficient for `parseElems` on the remaining elements. -/
def jCostList : List Json → Nat
  | [] => 0
  | x :: t => 1 + jCost x + jCostList t
/-- Fuel sufficient for `parseMembers` on the remaining members. -/
def jCostPairs : List (String × Json) → Nat
  | [] => 0
  | (k, v) :: t => 2 + k.data.length + jCost v + jCostPairs t
end

/-- The rest of the input after a serialized value never begins with a
digit (it is empty or starts with a separator or closing bracket), so the
number scanner stops exactly at the value boundary. -/
def delimOk : List Char → Bool
  | [] => true
  | c :: _ => !(isDigitB c)

/-- The object store under `objects_dir`: an association list from
`(subdirectory, filename)` path pairs to the stored bytes. -/
abbrev Store := List ((String × String) × String)

/-- `objects_dir / digest[:2] / (digest[2:] + ".json.gz")`. -/
def blobPath (digest : String) : String × String :=
  (String.mk (digest.data.take 2), String.mk (digest.data.drop 2) ++ ".json.gz")

/-- `Path.exists` / file read on the store. -/
def fsLookup (st : Store) (k : String × String) : Option String :=
  (st.find? (fun e => decide (e.1 = k))).map (fun e => e.2)

/-- `write_blob` (storage.py): create `digest[:2]/digest[2:].json.gz`
with the gzipped data unless the path already exists, in which case the
write is skipped. -/
def write_blob (comp : String → String) (digest data : String) (st : Store) : Store :=
  if (fsLookup st (blobPath digest)).isSome then st
  else (blobPath digest, comp data) :: st

/-- `load_blob` (retriever.py): find the blob file for a digest, gunzip
it and `json.load` the text; missing path or malformed JSON raise. -/
def load_blob (decomp : String → String) (digest : String) (st : Store) :
    Except String Json :=
  match fsLookup st (blobPath digest) with
  | none => .error "Blob not found"
  | some gz =>
    match parse (decomp gz) with
    | some j => .ok j
    | none => .error "Expecting value"

/-- The per-module storing step of `store_ast_results` (storage.py):
serialize to canonical JSON, digest with sha256 (`hash`), and
`write_blob` the result, returning the digest recorded in the manifest
and the updated store. -/
def store_blob (hash comp : String → String) (x : Json) (st : Store) :
    String × Store :=
  (hash (dumps x), write_blob comp (hash (dumps x)) (dumps x) st)

end Storage

section StorageChar

theorem toNat_ofNat_valid (n : Nat) (h : n.isValidChar) : (Char.ofNat n).toNat = n := by
  rw [Char.ofNat, dif_pos h]
  rfl

theorem char_valid_nat (c : Char) : c.toNat < 55296 ∨ (57343 < c.toNat ∧ c.toNat < 1114112) :=
  c.valid

theorem mk_data_eq (s : String) : String.mk s.data = s := by
  cases s
  rfl

theorem int_negsucc (m : Nat) : -((m + 1 : Nat) : Int) = Int.negSucc m := by
  rw [Int.negSucc_eq]
  push_cast
  ring

theorem hexVal_hexDigitChar : ∀ d < 16, hexVal (hexDigitChar d) = some d := by decide

theorem digitChar_toNat : ∀ d < 10, (digitChar d).toNat = 48 + d := by decide

theorem isDigitB_digitChar : ∀ d < 10, isDigitB (digitChar d) = true := by decide

theorem isDigitB_iff (c : Char) : isDigitB c = true ↔ 48 ≤ c.toNat ∧ c.toNat ≤ 57 := by
  rw [isDigitB]
  simp

theorem isWs_eq_false_iff (c : Char) :
    isWs c = false ↔ c.toNat ≠ 32 ∧ c.toNat ≠ 9 ∧ c.toNat ≠ 10 ∧ c.toNat ≠ 13 := by
  rw [isWs]
  simp
  tauto

theorem skipWs_cons_not_ws {c : Char} (h : isWs c = false) (t : List Char) :
    skipWs (c :: t) = c :: t := by
  rw [skipWs, h]
  rfl

theorem parseHex4_hex4 (n : Nat) (h : n < 65536) (t : List Char) :
    parseHex4 (hex4 n ++ t) = some (n, t) := by
  have h1 : hexVal (hexDigitChar (n / 4096 % 16)) = some (n / 4096 % 16) :=
    hexVal_hexDigitChar _ (Nat.mod_lt _ (by omega))
  have h2 : hexVal (hexDigitChar (n / 256 % 16)) = some (n / 256 % 16) :=
    hexVal_hexDigitChar _ (Nat.mod_lt _ (by omega))
  have h3 : hexVal (hexDigitChar (n / 16 % 16)) = some (n / 16 % 16) :=
    hexVal_hexDigitChar _ (Nat.mod_lt _ (by omega))
  have h4 : hexVal (hexDigitChar (n % 16)) = some (n % 16) :=
    hexVal_hexDigitChar _ (Nat.mod_lt _ (by omega))
  rw [hex4]
  show parseHex4 (hexDigitChar (n / 4096 % 16) :: hexDigitChar (n / 256 % 16) ::
    hexDigitChar (n / 16 % 16) :: hexDigitChar (n % 16) :: t) = some (n, t)
  rw [parseHex4, h1, h2, h3, h4]
  show some (n / 4096 % 16 * 4096 + n / 256 % 16 * 256 + n / 16 % 16 * 16 + n % 16, t) =
    some (n, t)
  have : n / 4096 % 16 * 4096 + n / 256 % 16 * 256 + n / 16 % 16 * 16 + n % 16 = n := by
    omega
  rw [this]

end StorageChar

section StorageNat

theorem natDigitsAux_eq (n : Nat) : ∀ (fuel : Nat) (acc : List Char), n < fuel →
    natDigitsAux fuel n acc = natChars n ++ acc := by
  induction n using Nat.strong_induction_on with
  | _ n ih =>
    intro fuel acc hlt
    cases fuel with
    | zero => omega
    | succ f =>
      by_cases h10 : n < 10
      · have hR : natChars n = [digitChar n] := by
          rw [natChars, natDigitsAux, if_pos h10]
        rw [natDigitsAux, if_pos h10, hR]
        rfl
      · have hR : natChars n = natChars (n / 10) ++ [digitChar (n % 10)] := by
          rw [natChars]
          conv_lhs => rw [natDigitsAux]
          rw [if_neg h10, ih (n / 10) (by omega) n _ (by omega)]
        rw [natDigitsAux, if_neg h10, ih (n / 10) (by omega) f _ (by omega), hR]
        simp

theorem natChars_eq (n : Nat) :
    natChars n = if n < 10 then [digitChar n]
      else natChars (n / 10) ++ [digitChar (n % 10)] := by
  by_cases h10 : n < 10
  · rw [if_pos h10, natChars, natDigitsAux, if_pos h10]
  · rw [if_neg h10, natChars]
    conv_lhs => rw [natDigitsAux]
    rw [if_neg h10, natDigitsAux_eq (n / 10) n _ (by omega)]

theorem natChars_head (n : Nat) :
    ∃ c t, natChars n = c :: t ∧ isDigitB c = true := by
  induction n using Nat.strong_induction_on with
  | _ n ih =>
    rw [natChars_eq]
    by_cases h10 : n < 10
    · rw [if_pos h10]
      exact ⟨digitChar n, [], rfl, isDigitB_digitChar n h10⟩
    · rw [if_neg h10]
      obtain ⟨c, t, heq, hd⟩ := ih (n / 10) (by omega)
      exact ⟨c, t ++ [digitChar (n % 10)], by rw [heq]; rfl, hd⟩

theorem parseNatAux_stop (rest : List Char) (k : Nat) (h : delimOk rest = true) :
    parseNatAux rest k = (k, rest) := by
  cases rest with
  | nil => rfl
  | cons c t =>
    have hc : isDigitB c = false := by
      rw [delimOk] at h
      simp at h
      exact h
    rw [parseNatAux, hc]
    rfl

theorem parseNatAux_natChars (n : Nat) : ∀ (k : Nat) (rest : List Char),
    parseNatAux (natChars n ++ rest) k =
      parseNatAux rest (k * 10 ^ (natChars n).length + n) := by
  induction n using Nat.strong_induction_on with
  | _ n ih =>
    intro k rest
    rw [natChars_eq n]
    by_cases h10 : n < 10
    · rw [if_pos h10]
      have hd := isDigitB_digitChar n h10
      have ht := digitChar_toNat n h10
      show parseNatAux (digitChar n :: rest) k = _
      rw [parseNatAux, hd, if_pos rfl, ht]
      congr 1
      simp
    · rw [if_neg h10]
      have hd := isDigitB_digitChar (n % 10) (by omega)
      have ht := digitChar_toNat (n % 10) (by omega)
      rw [List.append_assoc, ih (n / 10) (by omega)]
      show parseNatAux (digitChar (n % 10) :: rest) _ = _
      rw [parseNatAux, hd, if_pos rfl, ht]
      congr 1
      have h48 : 48 + n % 10 - 48 = n % 10 := by omega
      rw [h48]
      have hlen : (natChars (n / 10) ++ [digitChar (n % 10)]).length =
          (natChars (n / 10)).length + 1 := by simp
      rw [hlen, pow_succ]
      calc (k * 10 ^ (natChars (n / 10)).length + n / 10) * 10 + n % 10
          = k * (10 ^ (natChars (n / 10)).length * 10) + (10 * (n / 10) + n % 10) := by
            ring
        _ = k * (10 ^ (natChars (n / 10)).length * 10) + n := by
            congr 1
            omega

theorem parseNat_round (n : Nat) (rest : List Char) (h : delimOk rest = true) :
    parseNatAux (natChars n ++ rest) 0 = (n, rest) := by
  rw [parseNatAux_natChars, parseNatAux_stop _ _ h]
  simp

end StorageNat

section StorageStr

theorem psb_quote_step (f : Nat) (acc X : List Char) :
    parseStringBody (f + 1) ('\\' :: '"' :: X) acc = parseStringBody f X (acc ++ ['"']) := rfl

theorem psb_bslash_step (f : Nat) (acc X : List Char) :
    parseStringBody (f + 1) ('\\' :: '\\' :: X) acc = parseStringBody f X (acc ++ ['\\']) := rfl

theorem psb_b_step (f : Nat) (acc X : List Char) :
    parseStringBody (f + 1) ('\\' :: 'b' :: X) acc =
      parseStringBody f X (acc ++ [Char.ofNat 8]) := rfl

theorem psb_t_step (f : Nat) (acc X : List Char) :
    parseStringBody (f + 1) ('\\' :: 't' :: X) acc =
      parseStringBody f X (acc ++ [Char.ofNat 9]) := rfl

theorem psb_n_step (f : Nat) (acc X : List Char) :
    parseStringBody (f + 1) ('\\' :: 'n' :: X) acc =
      parseStringBody f X (acc ++ [Char.ofNat 10]) := rfl

theorem psb_f_step (f : Nat) (acc X : List Char) :
    parseStringBody (f + 1) ('\\' :: 'f' :: X) acc =
      parseStringBody f X (acc ++ [Char.ofNat 12]) := rfl

theorem psb_r_step (f : Nat) (acc X : List Char) :
    parseStringBody (f + 1) ('\\' :: 'r' :: X) acc =
      parseStringBody f X (acc ++ [Char.ofNat 13]) := rfl

theorem psb_u_single_step (f n : Nat) (acc X : List Char) (hlt : n < 65536)
    (h1 : ¬(55296 ≤ n ∧ n ≤ 56319)) (h2 : ¬(56320 ≤ n ∧ n ≤ 57343)) :
    parseStringBody (f + 1) ('\\' :: 'u' :: (hex4 n ++ X)) acc =
      parseStringBody f X (acc ++ [Char.ofNat n]) := by
  rw [parseStringBody, parseHex4_hex4 n hlt]
  dsimp only
  rw [if_neg h1, if_neg h2]
  rfl

theorem psb_pair_step (f n m : Nat) (acc X : List Char)
    (hn : 55296 ≤ n ∧ n ≤ 56319) (hm : 56320 ≤ m ∧ m ≤ 57343)
    (hnlt : n < 65536) (hmlt : m < 65536) :
    parseStringBody (f + 1) ('\\' :: 'u' :: (hex4 n ++ ('\\' :: 'u' :: (hex4 m ++ X)))) acc =
      parseStringBody f X (acc ++ [Char.ofNat (65536 + (n - 55296) * 1024 + (m - 56320))]) := by
  rw [parseStringBody, parseHex4_hex4 n hnlt]
  dsimp only
  rw [if_pos hn]
  show (match parseHex4 (hex4 m ++ X) with
    | none => none
    | some (m2, t5) =>
      if 56320 ≤ m2 ∧ m2 ≤ 57343 then
        parseStringBody f t5 (acc ++
          [Char.ofNat (65536 + (n - 55296) * 1024 + (m2 - 56320))])
      else none) = _
  rw [parseHex4_hex4 m hmlt]
  dsimp only
  rw [if_pos hm]

theorem psb_plain_step (f : Nat) (c : Char) (acc X : List Char)
    (h1 : ¬c = '"') (h2 : ¬c = '\\') (h3 : ¬c.toNat < 32) :
    parseStringBody (f + 1) (c :: X) acc = parseStringBody f X (acc ++ [c]) := by
  rw [parseStringBody.eq_def]
  dsimp only
  rw [if_neg h1, if_neg h2, if_neg h3]

theorem parseStringBody_escape (cs : List Char) : ∀ (fuel : Nat) (acc rest : List Char),
    cs.length < fuel →
    parseStringBody fuel (cs.flatMap escapeChar ++ '"' :: rest) acc =
      some (String.mk (acc ++ cs), rest) := by
  induction cs with
  | nil =>
    intro fuel acc rest hf
    cases fuel with
    | zero => omega
    | succ f =>
      show parseStringBody (f + 1) ('"' :: rest) acc = some (String.mk (acc ++ []), rest)
      rw [List.append_nil]
      rfl
  | cons c cs ih =>
    intro fuel acc rest hf
    cases fuel with
    | zero => omega
    | succ f =>
      have hf' : cs.length < f := by
        rw [List.length_cons] at hf
        omega
      rw [List.flatMap_cons, List.append_assoc]
      by_cases h1 : c = '"'
      · subst h1
        rw [show escapeChar '"' = ['\\', '"'] from rfl]
        simp only [List.cons_append, List.nil_append]
        rw [psb_quote_step, ih f _ rest hf']
        simp
      · by_cases h2 : c = '\\'
        · subst h2
          rw [show escapeChar '\\' = ['\\', '\\'] from rfl]
          simp only [List.cons_append, List.nil_append]
          rw [psb_bslash_step, ih f _ rest hf']
          simp
        · by_cases h3 : c = Char.ofNat 8
          · subst h3
            rw [show escapeChar (Char.ofNat 8) = ['\\', 'b'] from rfl]
            simp only [List.cons_append, List.nil_append]
            rw [psb_b_step, ih f _ rest hf']
            simp
          · by_cases h4 : c = Char.ofNat 9
            · subst h4
              rw [show escapeChar (Char.ofNat 9) = ['\\', 't'] from rfl]
              simp only [List.cons_append, List.nil_append]
              rw [psb_t_step, ih f _ rest hf']
              simp
            · by_cases h5 : c = Char.ofNat 10
              · subst h5
                rw [show escapeChar (Char.ofNat 10) = ['\\', 'n'] from rfl]
                simp only [List.cons_append, List.nil_append]
                rw [psb_n_step, ih f _ rest hf']
                simp
              · by_cases h6 : c = Char.ofNat 12
                · subst h6
                  rw [show escapeChar (Char.ofNat 12) = ['\\', 'f'] from rfl]
                  simp only [List.cons_append, List.nil_append]
                  rw [psb_f_step, ih f _ rest hf']
                  simp
                · by_cases h7 : c = Char.ofNat 13
                  · subst h7
                    rw [show escapeChar (Char.ofNat 13) = ['\\', 'r'] from rfl]
                    simp only [List.cons_append, List.nil_append]
                    rw [psb_r_step, ih f _ rest hf']
                    simp
                  · by_cases h8 : c.toNat < 32 ∨ 127 ≤ c.toNat
                    · have hval := char_valid_nat c
                      by_cases h16 : c.toNat < 65536
                      · rw [escapeChar, if_neg h1, if_neg h2, if_neg h3, if_neg h4,
                          if_neg h5, if_neg h6, if_neg h7, if_pos h8, if_pos h16]
                        simp only [List.cons_append]
                        rw [psb_u_single_step f c.toNat _ _ h16 (by omega) (by omega),
                          Char.ofNat_toNat, ih f _ rest hf']
                        simp
                      · rw [escapeChar, if_neg h1, if_neg h2, if_neg h3, if_neg h4,
                          if_neg h5, if_neg h6, if_neg h7, if_pos h8, if_neg h16]
                        have hub : c.toNat < 1114112 := by omega
                        simp only [List.cons_append, List.append_assoc]
                        rw [psb_pair_step f (55296 + (c.toNat - 65536) / 1024)
                          (56320 + (c.toNat - 65536) % 1024) _ _
                          (by omega) (by omega) (by omega) (by omega)]
                        have harith : 65536 + (55296 + (c.toNat - 65536) / 1024 - 55296) * 1024 +
                            (56320 + (c.toNat - 65536) % 1024 - 56320) = c.toNat := by
                          omega
                        rw [harith, Char.ofNat_toNat, ih f _ rest hf']
                        simp
                    · rw [escapeChar, if_neg h1, if_neg h2, if_neg h3, if_neg h4,
                        if_neg h5, if_neg h6, if_neg h7, if_neg h8]
                      simp only [List.cons_append, List.nil_append]
                      rw [psb_plain_step f c _ _ h1 h2 (by omega), ih f _ rest hf']
                      simp

end StorageStr

section StorageSort

theorem charsLt_asymm : ∀ a b : List Char, charsLt a b = true → charsLt b a = false := by
  intro a
  induction a with
  | nil =>
    intro b
    cases b with
    | nil => intro h; simp [charsLt] at h
    | cons x xs => intro h; rfl
  | cons x xs ih =>
    intro b
    cases b with
    | nil => intro h; cases h
    | cons y ys =>
      intro h
      rw [charsLt] at h ⊢
      by_cases h1 : x.toNat < y.toNat
      · rw [if_neg (by omega : ¬y.toNat < x.toNat), if_pos h1]
      · rw [if_neg h1] at h
        by_cases h2 : y.toNat < x.toNat
        · rw [if_pos h2] at h
          cases h
        · rw [if_neg h2] at h
          rw [if_neg h2, if_neg h1]
          exact ih ys h

theorem insertionSort_chain_eq (r : α → α → Prop) [DecidableRel r] :
    ∀ l : List α, List.Chain' r l → List.insertionSort r l = l := by
  intro l
  induction l with
  | nil => intro h; rfl
  | cons a l ih =>
    intro h
    rw [List.insertionSort]
    cases l with
    | nil => rfl
    | cons b t =>
      rw [List.chain'_cons] at h
      rw [ih h.2]
      rw [List.orderedInsert, if_pos h.1]

theorem dumpsPairs_chain (o : List (String × Json)) (h : keysSorted o = true) :
    List.Chain' (fun a b : String × List Char => strLeB a.1 b.1 = true) (dumpsPairs o) := by
  induction o with
  | nil => exact List.chain'_nil
  | cons p t ih =>
    cases t with
    | nil => exact List.chain'_singleton _
    | cons q t2 =>
      rw [keysSorted, Bool.and_eq_true] at h
      have hchain := ih h.2
      rw [dumpsPairs, dumpsPairs]
      rw [dumpsPairs] at hchain
      rw [List.chain'_cons]
      constructor
      · rw [strLeB, strLtB]
        rw [strLtB] at h
        rw [charsLt_asymm _ _ h.1]
        rfl
      · exact hchain

theorem joinComma_map (o : List (String × Json)) :
    joinComma ((dumpsPairs o).map renderPair) = membersChars o := by
  induction o with
  | nil => rfl
  | cons p t ih =>
    cases t with
    | nil => rfl
    | cons q t2 =>
      rw [membersChars]
      rw [← ih]
      rfl

theorem obj_render (o : List (String × Json)) (h : keysSorted o = true) :
    dumpsChars (.obj o) = '\x7b' :: membersChars o ++ ['\x7d'] := by
  rw [dumpsChars, sortedRender,
    insertionSort_chain_eq _ (dumpsPairs o) (dumpsPairs_chain o h), joinComma_map]

theorem jCost_pos (x : Json) : 1 ≤ jCost x := by
  cases x with
  | null => exact le_refl 1
  | bool b => exact le_refl 1
  | num n => exact le_refl 1
  | str s => rw [jCost]; omega
  | arr a => rw [jCost]; omega
  | obj o => rw [jCost]; omega

theorem jCostList_pos (l : List Json) (h : l ≠ []) : 1 ≤ jCostList l := by
  cases l with
  | nil => exact absurd rfl h
  | cons x t => rw [jCostList]; omega

theorem jCostPairs_pos (l : List (String × Json)) (h : l ≠ []) : 1 ≤ jCostPairs l := by
  cases l with
  | nil => exact absurd rfl h
  | cons p t =>
    obtain ⟨k, v⟩ := p
    rw [jCostPairs]
    omega

theorem escapeChar_length_pos (c : Char) : 1 ≤ (escapeChar c).length := by
  rw [escapeChar]
  repeat' split
  all_goals simp

theorem flatMap_escape_length (l : List Char) :
    l.length ≤ (l.flatMap escapeChar).length := by
  induction l with
  | nil => simp
  | cons c t ih =>
    rw [List.flatMap_cons, List.length_append, List.length_cons]
    have := escapeChar_length_pos c
    omega

theorem intChars_length_pos (n : Int) : 1 ≤ (intChars n).length := by
  cases n with
  | ofNat k =>
    obtain ⟨c, t, hc, _⟩ := natChars_head k
    show 1 ≤ (natChars k).length
    rw [hc]
    simp
  | negSucc m =>
    rw [intChars]
    simp

theorem canonical_arr (a : List Json) : canonical (.arr a) = canonicalList a := rfl

theorem canonical_obj (o : List (String × Json)) :
    canonical (.obj o) = (keysSorted o && canonicalPairs o) := rfl

mutual
theorem jCost_le_len : ∀ x : Json, canonical x = true → jCost x ≤ (dumpsChars x).length
  | .null => fun _ => by rw [jCost, dumpsChars]; simp
  | .bool b => fun _ => by
    cases b
    · rw [jCost]
      show 1 ≤ (['f', 'a', 'l', 's', 'e'] : List Char).length
      simp
    · rw [jCost]
      show 1 ≤ (['t', 'r', 'u', 'e'] : List Char).length
      simp
  | .num n => fun _ => by
    rw [jCost]
    exact intChars_length_pos n
  | .str s => fun _ => by
    rw [jCost]
    show 2 + s.data.length ≤ (escapeString s).length
    rw [escapeString]
    have := flatMap_escape_length s.data
    simp only [List.length_cons, List.length_append, List.length_nil]
    omega
  | .arr a => fun h => by
    rw [canonical_arr] at h
    rw [jCost, dumpsChars]
    have := jCostList_le_len a h
    simp only [List.length_cons, List.length_append, List.length_nil]
    omega
  | .obj o => fun h => by
    rw [canonical_obj, Bool.and_eq_true] at h
    rw [jCost, obj_render o h.1]
    have := jCostPairs_le_len o h.2
    simp only [List.length_cons, List.length_append, List.length_nil]
    omega
theorem jCostList_le_len : ∀ l : List Json,
    canonicalList l = true → jCostList l ≤ (dumpsList l).length + 1
  | [] => fun _ => by rw [jCostList, dumpsList]; simp
  | [x] => fun h => by
    rw [canonicalList, Bool.and_eq_true] at h
    rw [jCostList, jCostList, dumpsList]
    have := jCost_le_len x h.1
    omega
  | x :: y :: t => fun h => by
    rw [canonicalList, Bool.and_eq_true] at h
    rw [jCostList, dumpsList]
    have h1 := jCost_le_len x h.1
    have h2 := jCostList_le_len (y :: t) h.2
    simp only [List.length_append, List.length_cons]
    omega
theorem jCostPairs_le_len : ∀ l : List (String × Json),
    canonicalPairs l = true → jCostPairs l ≤ (membersChars l).length + 1
  | [] => fun _ => by rw [jCostPairs, membersChars]; simp
  | [(k, v)] => fun h => by
    rw [canonicalPairs, Bool.and_eq_true] at h
    rw [jCostPairs, jCostPairs, membersChars, memberChars, escapeString]
    have h1 := jCost_le_len v h.1
    have h2 := flatMap_escape_length k.data
    simp only [List.length_cons, List.length_append, List.length_nil, List.cons_append,
      List.nil_append]
    omega
  | (k, v) :: q :: t => fun h => by
    rw [canonicalPairs, Bool.and_eq_true] at h
    rw [jCostPairs, membersChars, memberChars, escapeString]
    have h1 := jCost_le_len v h.1
    have h2 := jCostPairs_le_len (q :: t) h.2
    have h3 := flatMap_escape_length k.data
    simp only [List.length_append, List.length_cons, List.length_nil, List.cons_append,
      List.nil_append]
    omega
end

end StorageSort

section StorageMain

theorem dumpsChars_head (x : Json) :
    ∃ c t, dumpsChars x = c :: t ∧ isWs c = false ∧ ¬c = ']' ∧ ¬c = '\x7d' := by
  cases x with
  | null => exact ⟨'n', _, rfl, rfl, by decide, by decide⟩
  | bool b =>
    cases b with
    | false => exact ⟨'f', _, rfl, rfl, by decide, by decide⟩
    | true => exact ⟨'t', _, rfl, rfl, by decide, by decide⟩
  | num n =>
    cases n with
    | ofNat k =>
      obtain ⟨c, t, hc, hd⟩ := natChars_head k
      rw [isDigitB_iff] at hd
      refine ⟨c, t, hc, ?_, ?_, ?_⟩
      · rw [isWs_eq_false_iff]
        omega
      · intro he
        subst he
        revert hd
        decide
      · intro he
        subst he
        revert hd
        decide
    | negSucc m => exact ⟨'-', _, rfl, rfl, by decide, by decide⟩
  | str s => exact ⟨'"', _, rfl, rfl, by decide, by decide⟩
  | arr a => exact ⟨'[', _, rfl, rfl, by decide, by decide⟩
  | obj o => exact ⟨'\x7b', _, rfl, rfl, by decide, by decide⟩

theorem dumpsList_head (x : Json) (xs : List Json) :
    ∃ c t, dumpsList (x :: xs) = c :: t ∧ isWs c = false ∧ ¬c = ']' ∧ ¬c = '\x7d' := by
  obtain ⟨c, t, hc, h1, h2, h3⟩ := dumpsChars_head x
  cases xs with
  | nil => exact ⟨c, t, by rw [show dumpsList [x] = dumpsChars x from rfl, hc], h1, h2, h3⟩
  | cons y t2 =>
    refine ⟨c, t ++ ',' :: dumpsList (y :: t2), ?_, h1, h2, h3⟩
    rw [show dumpsList (x :: y :: t2) = dumpsChars x ++ ',' :: dumpsList (y :: t2) from rfl,
      hc, List.cons_append]

theorem membersChars_head (p : String × Json) (t : List (String × Json)) :
    ∃ M, membersChars (p :: t) = '"' :: M := by
  obtain ⟨k, v⟩ := p
  cases t with
  | nil => exact ⟨_, rfl⟩
  | cons q t3 => exact ⟨_, rfl⟩

theorem parse_dumps_main : ∀ fuel : Nat,
    (∀ (x : Json) (rest : List Char), canonical x = true → jCost x ≤ fuel →
      delimOk rest = true →
      parseValue fuel (dumpsChars x ++ rest) = some (x, rest)) ∧
    (∀ (l : List Json) (acc : List Json) (rest : List Char), canonicalList l = true →
      l ≠ [] → jCostList l ≤ fuel →
      parseElems fuel (dumpsList l ++ ']' :: rest) acc = some (.arr (acc ++ l), rest)) ∧
    (∀ (l : List (String × Json)) (acc : List (String × Json)) (rest : List Char),
      canonicalPairs l = true → l ≠ [] → jCostPairs l ≤ fuel →
      parseMembers fuel (membersChars l ++ '\x7d' :: rest) acc =
        some (.obj (acc ++ l), rest)) := by
  intro fuel
  induction fuel with
  | zero =>
    refine ⟨fun x rest _ hc _ => absurd hc (by have := jCost_pos x; omega),
            fun l acc rest _ hne hc => absurd hc (by have := jCostList_pos l hne; omega),
            fun l acc rest _ hne hc => absurd hc (by have := jCostPairs_pos l hne; omega)⟩
  | succ f ih =>
    obtain ⟨ihV, ihEl, ihM⟩ := ih
    refine ⟨?_, ?_, ?_⟩
    · intro x rest hcan hcost hdel
      cases x with
      | null => rfl
      | bool b => cases b <;> rfl
      | num n =>
        cases n with
        | ofNat k =>
          obtain ⟨c, t, hc, hd⟩ := natChars_head k
          have hws : isWs c = false := by
            rw [isDigitB_iff] at hd
            rw [isWs_eq_false_iff]
            omega
          show parseValue (f + 1) (natChars k ++ rest) = some (.num (Int.ofNat k), rest)
          rw [parseValue, hc, List.cons_append, skipWs_cons_not_ws hws]
          simp only []
          rw [hd, if_pos rfl, ← List.cons_append, ← hc, parseNat_round k rest hdel]
          rfl
        | negSucc m =>
          obtain ⟨c, t, hc, hd⟩ := natChars_head (m + 1)
          have hws : isWs c = false := by
            rw [isDigitB_iff] at hd
            rw [isWs_eq_false_iff]
            omega
          show parseValue (f + 1) (('-' :: natChars (m + 1)) ++ rest) =
            some (.num (Int.negSucc m), rest)
          rw [List.cons_append, parseValue,
            skipWs_cons_not_ws (show isWs '-' = false from rfl)]
          simp only []
          rw [if_neg (by decide : ¬isDigitB '-' = true), if_pos trivial]
          rw [hc, List.cons_append]
          simp only []
          rw [hd, if_pos rfl, ← List.cons_append, ← hc, parseNat_round (m + 1) rest hdel]
          rw [show negCont (m + 1, rest) =
            some (Json.num (-((m + 1 : Nat) : Int)), rest) from rfl, int_negsucc]
      | str s =>
        have hlen : s.data.length < f := by
          rw [jCost] at hcost
          omega
        show parseValue (f + 1) (('"' :: (s.data.flatMap escapeChar ++ ['"'])) ++ rest) =
          some (.str s, rest)
        rw [List.cons_append, List.append_assoc, List.singleton_append]
        rw [parseValue, skipWs_cons_not_ws (show isWs '"' = false from rfl)]
        try simp only []
        rw [if_neg (by decide : ¬isDigitB '"' = true),
          if_neg (by decide : ¬('"' : Char) = '-')]
        conv_lhs => whnf
        rw [parseStringBody_escape s.data f [] rest hlen]
        show some (Json.str (String.mk ([] ++ s.data)), rest) = some (Json.str s, rest)
        rw [List.nil_append, mk_data_eq]
      | arr a =>
        cases a with
        | nil => rfl
        | cons x xs =>
          rw [canonical_arr] at hcan
          have hcost2 : jCostList (x :: xs) ≤ f := by
            rw [jCost] at hcost
            omega
          obtain ⟨c, t2, hc, hws, hrb, _⟩ := dumpsList_head x xs
          show parseValue (f + 1) (('[' :: (dumpsList (x :: xs) ++ [']'])) ++ rest) =
            some (.arr (x :: xs), rest)
          rw [List.cons_append, List.append_assoc, List.singleton_append]
          rw [parseValue, skipWs_cons_not_ws (show isWs '[' = false from rfl)]
          try simp only []
          rw [if_neg (by decide : ¬isDigitB '[' = true),
            if_neg (by decide : ¬('[' : Char) = '-')]
          conv_lhs => whnf
          rw [hc, List.cons_append, skipWs_cons_not_ws hws]
          simp only []
          rw [if_neg hrb, ← List.cons_append, ← hc]
          rw [ihEl (x :: xs) [] rest hcan (by simp) hcost2]
          rfl
      | obj o =>
        cases o with
        | nil => rfl
        | cons p t2 =>
          rw [canonical_obj, Bool.and_eq_true] at hcan
          have hcost2 : jCostPairs (p :: t2) ≤ f := by
            rw [jCost] at hcost
            omega
          rw [obj_render (p :: t2) hcan.1]
          obtain ⟨M, hM⟩ := membersChars_head p t2
          show parseValue (f + 1) (('\x7b' :: (membersChars (p :: t2) ++ ['\x7d'])) ++ rest) =
            some (.obj (p :: t2), rest)
          rw [List.cons_append, List.append_assoc, List.singleton_append]
          rw [parseValue, skipWs_cons_not_ws (show isWs '\x7b' = false from rfl)]
          try simp only []
          rw [if_neg (by decide : ¬isDigitB '\x7b' = true),
            if_neg (by decide : ¬('\x7b' : Char) = '-')]
          conv_lhs => whnf
          rw [hM, List.cons_append, skipWs_cons_not_ws (show isWs '"' = false from rfl)]
          try simp only []
          rw [if_neg (by decide : ¬('"' : Char) = '\x7d')]
          rw [← List.cons_append, ← hM]
          rw [ihM (p :: t2) [] rest hcan.2 (by simp) hcost2]
          rfl
    · intro l acc rest hcan hne hcost
      cases l with
      | nil => exact absurd rfl hne
      | cons x xs =>
        rw [canonicalList, Bool.and_eq_true] at hcan
        rw [jCostList] at hcost
        cases xs with
        | nil =>
          rw [parseElems, show dumpsList [x] = dumpsChars x from rfl]
          rw [ihV x (']' :: rest) hcan.1 (by omega) rfl]
          rfl
        | cons y t3 =>
          rw [parseElems,
            show dumpsList (x :: y :: t3) = dumpsChars x ++ ',' :: dumpsList (y :: t3) from rfl]
          rw [List.append_assoc, List.cons_append]
          rw [ihV x (',' :: (dumpsList (y :: t3) ++ ']' :: rest)) hcan.1 (by omega) rfl]
          simp only []
          rw [skipWs_cons_not_ws (show isWs ',' = false from rfl)]
          simp only []
          rw [ihEl (y :: t3) (acc ++ [x]) rest hcan.2 (by simp) (by omega)]
          simp
    · intro l acc rest hcan hne hcost
      cases l with
      | nil => exact absurd rfl hne
      | cons p t2 =>
        obtain ⟨k, v⟩ := p
        rw [canonicalPairs, Bool.and_eq_true] at hcan
        rw [jCostPairs] at hcost
        have hklen : k.data.length < f := by omega
        have hk : String.mk ([] ++ k.data) = k := by
          rw [List.nil_append]
        cases t2 with
        | nil =>
          rw [parseMembers,
            show membersChars [(k, v)] =
              '"' :: ((k.data.flatMap escapeChar ++ ['"']) ++ ':' :: dumpsChars v) from rfl]
          rw [List.cons_append, skipWs_cons_not_ws (show isWs '"' = false from rfl)]
          try simp only []
          simp only [List.append_assoc, List.singleton_append, List.cons_append,
            List.nil_append]
          rw [parseStringBody_escape k.data f [] _ hklen]
          try simp only []
          rw [skipWs_cons_not_ws (show isWs ':' = false from rfl)]
          try simp only []
          rw [ihV v ('\x7d' :: rest) hcan.1 (by omega) rfl]
          try simp only []
          rw [skipWs_cons_not_ws (show isWs '\x7d' = false from rfl)]
          try simp only []
          rw [hk]
          try simp
        | cons q t3 =>
          rw [parseMembers,
            show membersChars ((k, v) :: q :: t3) =
              '"' :: (((k.data.flatMap escapeChar ++ ['"']) ++ ':' :: dumpsChars v) ++
                ',' :: membersChars (q :: t3)) from rfl]
          rw [List.cons_append, skipWs_cons_not_ws (show isWs '"' = false from rfl)]
          try simp only []
          simp only [List.append_assoc, List.singleton_append, List.cons_append,
            List.nil_append]
          rw [parseStringBody_escape k.data f [] _ hklen]
          try simp only []
          rw [skipWs_cons_not_ws (show isWs ':' = false from rfl)]
          try simp only []
          rw [ihV v (',' :: (membersChars (q :: t3) ++ '\x7d' :: rest)) hcan.1 (by omega) rfl]
          try simp only []
          rw [skipWs_cons_not_ws (show isWs ',' = false from rfl)]
          try simp only []
          rw [hk]
          rw [ihM (q :: t3) (acc ++ [(k, v)]) rest hcan.2 (by simp) (by omega)]
          try simp

end StorageMain

section StorageClaim

theorem parse_dumps (x : Json) (h : canonical x = true) : parse (dumps x) = some x := by
  rw [parse, show (dumps x).data = dumpsChars x from rfl]
  have hcost : jCost x ≤ (dumpsChars x).length + 1 := by
    have := jCost_le_len x h
    omega
  have hmain := (parse_dumps_main ((dumpsChars x).length + 1)).1 x [] h hcost rfl
  rw [List.append_nil] at hmain
  rw [hmain]
  rfl

theorem fsLookup_insert (st : Store) (kk : String × String) (vv : String) :
    fsLookup ((kk, vv) :: st) kk = some vv := by
  rw [fsLookup]
  rw [List.find?_cons_of_pos]
  · rfl
  · simp

/-- C9: round trip through the blob store.  For any metadata value in
canonical form (objects keyed in sorted order, the form in which
association lists represent Python dicts), serializing with
`json.dumps(obj, sort_keys=True, separators=(",", ":"))`, digesting,
compressing and `write_blob`-ing it, then `load_blob`-ing that digest,
returns exactly the stored value.  The compressor/decompressor pair is
any inverse pair (gzip), the digest function is arbitrary, and the blob
path is either fresh or -- content addressing -- already holds this
blob's compressed bytes (`write_blob` skips the write in that case). -/
theorem claim_C9_blob_round_trip (hash comp decomp : String → String)
    (st : Store) (x : Json) (hx : canonical x = true)
    (hcd : ∀ s, decomp (comp s) = s)
    (hslot : fsLookup st (blobPath (hash (dumps x))) = none ∨
      fsLookup st (blobPath (hash (dumps x))) = some (comp (dumps x))) :
    load_blob decomp (hash (dumps x)) (store_blob hash comp x st).2 = Except.ok x := by
  rw [store_blob]
  show load_blob decomp (hash (dumps x))
    (write_blob comp (hash (dumps x)) (dumps x) st) = Except.ok x
  rw [write_blob]
  cases hslot with
  | inl h =>
    rw [h]
    show load_blob decomp (hash (dumps x))
      ((blobPath (hash (dumps x)), comp (dumps x)) :: st) = Except.ok x
    rw [load_blob, fsLookup_insert]
    simp only []
    rw [hcd, parse_dumps x hx]
  | inr h =>
    rw [h]
    show load_blob decomp (hash (dumps x)) st = Except.ok x
    rw [load_blob, h]
    simp only []
    rw [hcd, parse_dumps x hx]

/-- Witness for C9: a concrete two-field metadata object stored into an
empty store with the identity codec round-trips. -/
theorem claim_C9_witness :
    load_blob id ((fun _ => "ab12cd")
        (dumps (Json.obj [("module", Json.str "pkg/app.py"), ("mtime", Json.num 17)])))
      (store_blob (fun _ => "ab12cd") id
        (Json.obj [("module", Json.str "pkg/app.py"), ("mtime", Json.num 17)]) []).2 =
      Except.ok (Json.obj [("module", Json.str "pkg/app.py"), ("mtime", Json.num 17)]) :=
  claim_C9_blob_round_trip (fun _ => "ab12cd") id id []
    (Json.obj [("module", Json.str "pkg/app.py"), ("mtime", Json.num 17)])
    (by decide) (fun s => rfl) (Or.inl rfl)

end StorageClaim

end MLGit
